import Mathlib

/-!
Verification development for the spec-to-command-tree normalization and merge
engine of `src/tools/gen_command_tree.py` (xendit-cli).

The Python source is shallowly embedded: every definition below mirrors one
Python function (its name is kept where Lean allows).  Python dicts that are
only iterated in insertion order are modelled as association lists in the same
order; the `seen` registries of the importers and the merger always equal the
set of operation names (resp. `(method, path)` keys) of the accumulated entry
ops — both start empty and are extended in lock step — so the embedding
computes them from the accumulated ops directly.
-/

namespace Xendit

/-! ### Name normalizer: `camel_to_kebab` (gen_command_tree.py lines 12-17)

The Python function is a pipeline of string rewrites:
1. `value.replace("/", "-").replace("_", "-").replace(" ", "-")`
2. `CAMEL_RE.sub(r"\1-\2", value)` with `CAMEL_RE = ([a-z0-9])([A-Z])`
3. `re.sub(r"[^a-zA-Z0-9-]+", "-", value)`
4. `re.sub(r"-+", "-", value)`
5. `value.strip("-").lower()`

Step 2's matches can never overlap (the second character of a match is
uppercase, hence can never start another match), so substitution inserts a
hyphen between every adjacent lowercase/digit-uppercase pair.  Steps 3 and 4
together replace every non-alphanumeric, non-hyphen character by a hyphen and
collapse hyphen runs, which is modelled as a per-character map followed by the
run collapse.  All character classes in the Python regexes are ASCII ranges,
matching Lean's ASCII `Char.isLower`/`Char.isUpper`/`Char.isDigit`; `.lower()`
is applied after step 3 has reduced the alphabet to ASCII alphanumerics and
hyphens, where it agrees with `Char.toLower`. -/

/-- Characters replaced by `-` in step 1 of `camel_to_kebab`. -/
def sepChar (c : Char) : Bool := c = '/' || c = '_' || c = ' '

/-- Step 1 of `camel_to_kebab`. -/
def mapSep (cs : List Char) : List Char := cs.map (fun c => if sepChar c then '-' else c)

/-- The `CAMEL_RE` boundary: lowercase or digit immediately followed by uppercase. -/
def camelPair (a b : Char) : Bool := (a.isLower || a.isDigit) && b.isUpper

/-- Step 2 of `camel_to_kebab`: insert `-` at every `CAMEL_RE` boundary. -/
def camelIns : List Char → List Char
  | c1 :: c2 :: rest =>
    if camelPair c1 c2 then c1 :: '-' :: camelIns (c2 :: rest) else c1 :: camelIns (c2 :: rest)
  | l => l

/-- Characters kept by step 3 (`[a-zA-Z0-9-]`). -/
def keepChar (c : Char) : Bool := c.isAlphanum || c = '-'

/-- Step 3 of `camel_to_kebab` (character part; run collapsing is step 4). -/
def badToDash (cs : List Char) : List Char := cs.map (fun c => if keepChar c then c else '-')

/-- Step 4 of `camel_to_kebab`: collapse runs of hyphens (keeping one per run). -/
def collapseDashes : List Char → List Char
  | c1 :: c2 :: rest =>
    if c1 = '-' && c2 = '-' then collapseDashes (c2 :: rest) else c1 :: collapseDashes (c2 :: rest)
  | l => l

def isDash (c : Char) : Bool := c = '-'

/-- `value.strip("-")`: drop leading and trailing hyphens. -/
def stripDashes (cs : List Char) : List Char :=
  ((cs.dropWhile isDash).reverse.dropWhile isDash).reverse

/-- The whole `camel_to_kebab` pipeline on character lists. -/
def kebabChars (cs : List Char) : List Char :=
  (stripDashes (collapseDashes (badToDash (camelIns (mapSep cs))))).map Char.toLower

/-- `camel_to_kebab` (gen_command_tree.py lines 12-17). -/
def camel_to_kebab (s : String) : String := (kebabChars s.data).asString

/-- `normalize_op_name` (gen_command_tree.py lines 20-22): kebab-case with
fallback `"call"` for an empty (falsy) result. -/
def normalize_op_name (s : String) : String :=
  let n := camel_to_kebab s
  if n = "" then "call" else n

/-- Python `str.lower()` (ASCII model, like every character class in this
tool); equal to `String.toLower`, defined on the character list so that it
evaluates by kernel reduction. -/
def strToLower (s : String) : String := (s.data.map Char.toLower).asString

/-- Python `str.upper()` (ASCII model). -/
def strToUpper (s : String) : String := (s.data.map Char.toUpper).asString

/-! ### Path-parameter extraction: `extract_path_params` (lines 57-63)

The Python code runs
`re.findall(r"\x7b([^}]+)\x7d|:([A-Za-z0-9_]+)|\x7b\x7b([^}]+)\x7d\x7d", path)`
and appends, for each match, the first non-empty capture group.  `findall`
scans left to right, trying the alternatives in order at each position and
resuming after the end of a successful match.  At a `{`, the first
alternative `\x7b([^}]+)\x7d` matches greedily up to the first following `}`
(backtracking cannot help: every shorter candidate ends on a non-`}`), so it
matches whenever at least one non-`}` character is followed by a `}`; when it
fails, the third alternative `\x7b\x7b([^}]+)\x7d\x7d` necessarily fails too
(it needs the same closing material), so the double-curly alternative is
unreachable.  Captured groups are nonempty by construction, hence the
`if name` filter in the source never drops a match. -/

/-- `[A-Za-z0-9_]` of the colon alternative. -/
def wordChar (c : Char) : Bool := c.isAlphanum || c = '_'

/-- The `findall` scan of `extract_path_params`.  The scan consumes at least
one character per step, so the explicit fuel `cs.length` in `scanParams`
never runs out; it only makes the recursion structural. -/
def scanParamsAux : Nat → List Char → List String
  | _, [] => []
  | 0, _ => []
  | fuel + 1, c :: rest =>
    if c = '\x7b' then
      let inner := rest.takeWhile (fun x => x ≠ '\x7d')
      if inner ≠ [] ∧ (rest.drop inner.length).head? = some '\x7d' then
        inner.asString :: scanParamsAux fuel (rest.drop (inner.length + 1))
      else
        scanParamsAux fuel rest
    else if c = ':' then
      let w := rest.takeWhile wordChar
      if w ≠ [] then w.asString :: scanParamsAux fuel (rest.drop w.length)
      else scanParamsAux fuel rest
    else scanParamsAux fuel rest

def scanParams (cs : List Char) : List String := scanParamsAux cs.length cs

/-- `extract_path_params` (gen_command_tree.py lines 57-63). -/
def extract_path_params (path : String) : List String := scanParams path.data

/-! ### Decimal representation: `Nat.repr` produces the digits of `n`

`Nat.repr n = (Nat.toDigitsCore 10 (n+1) n []).asString`; the fuel `n+1`
always suffices, so `Nat.repr` equals the following structural digits
function, which is injective and produces only ASCII digits. -/

def natDigits (n : Nat) : List Char :=
  if _h : n < 10 then [Nat.digitChar n]
  else natDigits (n / 10) ++ [Nat.digitChar (n % 10)]
  decreasing_by exact Nat.div_lt_self (by omega) (by omega)

/-! ### Canonical kebab case

A string is in canonical kebab case when it consists of lowercase ASCII
alphanumeric tokens separated by single hyphens, with no leading or trailing
hyphen.  `camel_to_kebab` always produces canonical output and fixes
canonical input — the two central structural facts about the normalizer. -/

/-- Canonical kebab alphabet: lowercase ASCII letters and digits. -/
def goodChar (c : Char) : Bool := c.isLower || c.isDigit

/-- No two adjacent hyphens. -/
def noDoubleDash : List Char → Bool
  | c1 :: c2 :: rest => !(c1 = '-' && c2 = '-') && noDoubleDash (c2 :: rest)
  | _ => true

def isKebabChars (cs : List Char) : Bool :=
  cs.all (fun c => goodChar c || c = '-') && noDoubleDash cs &&
    cs.head? != some '-' && cs.getLast? != some '-'

/-- `s` is a canonical kebab-case string. -/
def IsKebab (s : String) : Prop := isKebabChars s.data = true

/-- The part of `camel_to_kebab (s ++ "-" ++ d)` that does not depend on the
digit suffix `d`. -/
def kebabStem (cs : List Char) : List Char :=
  ((collapseDashes (badToDash (camelIns (mapSep cs ++ ['-'])))).dropWhile isDash).map Char.toLower

/-! ### Name-collision retry loops

`build_from_postman`'s `dedupe` (lines 216-226) and the merger's inline
renaming (lines 293-299) share one loop shape: after an optional
lowercased-verb retry, candidates `normalize_op_name (name ++ "-" ++ str idx)`
are tried for `idx = 2, 3, ...` until one is not in `used` — the base `name`
stays fixed.  `build_from_openapi`'s inline loop (lines 164-171) differs: each
numeric retry is applied to the PREVIOUS candidate (`op_name`), so suffixes
accumulate.  The Python loops are unbounded `while` loops; they are embedded
with an explicit fuel of `used.length + 2`, which the freshness lemmas below
prove is never exhausted (there are at most `used.length` collisions among the
pairwise-distinct candidates), so the embedding computes exactly the value of
the Python loop. -/

/-- The shared numeric-suffix loop of `dedupe` and `merge_trees`
(`while candidate in used: candidate = normalize_op_name(f"{name}-{idx}"); idx += 1`). -/
def numericRetry (used : List String) (name cand : String) (idx fuel : Nat) : String :=
  match fuel with
  | 0 => cand
  | f + 1 =>
    if used.contains cand then
      numericRetry used name (normalize_op_name (name ++ "-" ++ Nat.repr idx)) (idx + 1) f
    else cand

/-- `dedupe` of `build_from_postman` (gen_command_tree.py lines 216-226),
without the `used.add` side effect (performed by the caller in this embedding). -/
def dedupe (used : List String) (name method : String) : String :=
  let candidate := if used.contains name then normalize_op_name (name ++ "-" ++ strToLower method) else name
  numericRetry used name candidate 2 (used.length + 2)

/-- The renaming block of `merge_trees` (gen_command_tree.py lines 294-299);
only invoked by the merger when `name` is already used. -/
def mergeRename (used : List String) (name method : String) : String :=
  numericRetry used name (normalize_op_name (name ++ "-" ++ strToLower method)) 2 (used.length + 2)

/-- The numeric-suffix loop of `build_from_openapi` (lines 167-170):
`while op_name in used: op_name = normalize_op_name(f"{op_name}-{idx}"); idx += 1` —
note the suffix is appended to the previous candidate, not to a fixed base. -/
def oaNumeric (used : List String) (cand : String) (idx fuel : Nat) : String :=
  match fuel with
  | 0 => cand
  | f + 1 =>
    if used.contains cand then
      oaNumeric used (normalize_op_name (cand ++ "-" ++ Nat.repr idx)) (idx + 1) f
    else cand

/-- The collision-resolution block of `build_from_openapi` (lines 164-171):
verb retry with the document's raw method key, then the accumulating loop. -/
def oaFresh (used : List String) (name method : String) : String :=
  let n1 := if used.contains name then normalize_op_name (name ++ "-" ++ method) else name
  oaNumeric used n1 2 (used.length + 2)

/-! ### Data model

The JSON documents are modelled structurally, with exactly the fields the
Python code reads.  A falsy-or-absent string field is modelled as `""` (the
code treats `None` and `""` identically everywhere it reads one); a falsy
`requestBody` / `required` / `disabled` is modelled as `false`.  Dicts that
are only created, extended and iterated in insertion order become association
lists in the same order. -/

structure Param where
  name : String
  flag : String
  location : String
  required : Bool
  deriving DecidableEq, Repr

structure Op where
  name : String
  method : String
  path : String
  description : String
  params : List Param
  has_body : Bool
  deriving DecidableEq, Repr

structure Resource where
  name : String
  ops : List Op
  deriving DecidableEq, Repr

structure Tree where
  version : Nat
  base_url : String
  resources : List Resource
  deriving DecidableEq, Repr

/-- An entry of a Postman URL object's `variable` list (only `key` is read). -/
structure PMVar where
  key : String
  deriving DecidableEq, Repr

/-- An entry of a Postman URL object's `query` list. -/
structure PMQuery where
  key : String
  disabled : Bool
  deriving DecidableEq, Repr

/-- The `url` field of a Postman request: a raw string, a structured object,
or anything else (treated as absent).  `PMUrl.str ""` models a falsy/missing
url (`request.get("url") or ""`).  In the object form, `path` is `some segs`
when the JSON value is a list (the `isinstance(path, list)` check), `raw`
is `url.get("raw") or ""`. -/
inductive PMUrl where
  | str (raw : String)
  | obj (path : Option (List String)) (raw : String) (vars : List PMVar)
      (query : List PMQuery)
  | other
  deriving DecidableEq, Repr

structure PMRequest where
  method : String
  url : PMUrl
  bodyMode : Option String
  description : String
  deriving DecidableEq, Repr

/-- A Postman item: any dict with an `item` key is a folder (even with a
null/empty list, via `item.get("item") or []`), anything else is a request.
The stored names model `item.get("name") or ""`. -/
inductive PMItem where
  | folder (name : String) (items : List PMItem)
  | request (name : String) (description : String) (req : PMRequest)

/-- A top-level Postman collection variable. -/
structure PMVariable where
  key : String
  value : String
  deriving DecidableEq, Repr

structure PMSpec where
  vars : List PMVariable
  items : List PMItem

structure OAParam where
  name : String
  location : String
  required : Bool
  deriving DecidableEq, Repr

structure OADetails where
  tags : List String
  operationId : String
  parameters : List OAParam
  requestBody : Bool
  summary : String
  description : String
  deriving DecidableEq, Repr

/-- An OpenAPI document: the list of server urls and the `paths` map.  A path
entry whose value is not a dict (`isinstance(methods, dict)`) is `none`; a
null per-method details dict (`details or \x7b\x7d`) is modelled by the
all-default `OADetails`. -/
structure OASpec where
  servers : List String
  paths : List (String × Option (List (String × OADetails)))
  deriving DecidableEq, Repr

/-! ### Path resolution: `path_from_raw` / `build_path` (lines 25-54) -/

/-- Python `str.split(sep)` for a one-character separator: splits at every
occurrence, keeping empty fields. -/
def pySplit (sep : Char) : List Char → List (List Char)
  | [] => [[]]
  | c :: rest =>
    if c = sep then [] :: pySplit sep rest
    else
      match pySplit sep rest with
      | g :: gs => (c :: g) :: gs
      | [] => [[c]]

/-- `"://" in raw`. -/
def hasSchemeSep : List Char → Bool
  | ':' :: '/' :: '/' :: _ => true
  | _ :: rest => hasSchemeSep rest
  | [] => false

/-- Characters after the first `"://"`. -/
def afterSchemeSep : List Char → List Char
  | ':' :: '/' :: '/' :: rest => rest
  | _ :: rest => afterSchemeSep rest
  | [] => []

/-- Modelled from the Python standard library: `urllib.parse.urlparse(raw).path`
for a string containing `"://"` — the text from the first `/` after the
scheme separator, up to (excluding) any `?` or `#`. -/
def urlparsePath (raw : String) : String :=
  (((afterSchemeSep raw.data).dropWhile (fun c => c ≠ '/')).takeWhile
    (fun c => c ≠ '?' ∧ c ≠ '#')).asString

/-- Characters after the first `"\x7d\x7d"` (`raw.find("\x7d\x7d")`), if any. -/
def afterBrace2 : List Char → Option (List Char)
  | '\x7d' :: '\x7d' :: rest => some rest
  | _ :: rest => afterBrace2 rest
  | [] => none

/-- `path_from_raw` (gen_command_tree.py lines 25-41). -/
def path_from_raw (raw : String) : String :=
  let raw := (raw.data.takeWhile (fun c => c ≠ '?')).asString
  if hasSchemeSep raw.data then
    let p := urlparsePath raw
    if p = "" then "/" else p
  else if raw.data.head? = some '/' then raw
  else if raw.data.take 2 = ['\x7b', '\x7b'] then
    match afterBrace2 raw.data with
    | some tail =>
      if tail = [] then "/"
      else if tail.head? = some '/' then tail.asString
      else "/" ++ tail.asString
    | none => "/" ++ (raw.data.dropWhile (fun c => c = '/')).asString
  else "/" ++ (raw.data.dropWhile (fun c => c = '/')).asString

/-- `build_path` (gen_command_tree.py lines 44-54). -/
def build_path (url : PMUrl) : String :=
  match url with
  | .str raw => path_from_raw raw
  | .obj path raw _ _ =>
    match path with
    | some segs =>
      if segs ≠ [] then "/" ++ String.intercalate "/" segs
      else if raw ≠ "" then path_from_raw raw
      else "/"
    | none => if raw ≠ "" then path_from_raw raw else "/"
  | .other => "/"

/-- `next((s for s in path.split("/") if s), "root")`. -/
def firstNonemptySeg (path : String) : String :=
  match (pySplit '/' path.data).find? (fun s => s ≠ []) with
  | some s => s.asString
  | none => "root"

/-- `derive_resource` (gen_command_tree.py lines 66-72). -/
def derive_resource (parents : List String) (path : String) : String :=
  match parents with
  | base :: _ =>
    if base ≠ "" then camel_to_kebab base else camel_to_kebab (firstNonemptySeg path)
  | [] => camel_to_kebab (firstNonemptySeg path)

/-! ### Parameter collection: `collect_params` (lines 75-109)

The Python function builds a dict keyed by `(location, name)` in insertion
order; overwriting an existing key keeps its position.  `upsert` mirrors this
exactly. -/

def upsert (k : String × String) (v : Param) :
    List ((String × String) × Param) → List ((String × String) × Param)
  | [] => [(k, v)]
  | (k0, v0) :: rest => if k0 = k then (k0, v) :: rest else (k0, v0) :: upsert k v rest

/-- `collect_params` (gen_command_tree.py lines 75-109). -/
def collect_params (url : PMUrl) (path : String) : List Param :=
  let ps : List ((String × String) × Param) :=
    (extract_path_params path).foldl (fun acc n =>
      upsert ("path", n)
        {name := n, flag := camel_to_kebab n, location := "path", required := true} acc) []
  let ps :=
    match url with
    | .obj _ _ vars query =>
      let ps := vars.foldl (fun acc (v : PMVar) =>
        if v.key ≠ "" then
          upsert ("path", v.key)
            {name := v.key, flag := camel_to_kebab v.key, location := "path",
             required := true} acc
        else acc) ps
      query.foldl (fun acc (q : PMQuery) =>
        if q.disabled then acc
        else if q.key ≠ "" then
          upsert ("query", q.key)
            {name := q.key, flag := camel_to_kebab q.key, location := "query",
             required := false} acc
        else acc) ps
    | _ => ps
  ps.map (fun e => e.2)

/-! ### Builder state

`resources` / `seen` are dicts keyed by resource name; the state is the
association list of `(resource name, ops)` in insertion order, with the `seen`
sets recomputed from the ops (see the header comment). -/

abbrev BState := List (String × List Op)

def lookupD (st : BState) (k : String) : List Op :=
  match st with
  | [] => []
  | (k0, v) :: rest => if k0 = k then v else lookupD rest k

def updateAssoc (st : BState) (k : String) (f : List Op → List Op) : BState :=
  match st with
  | [] => [(k, f [])]
  | (k0, v) :: rest => if k0 = k then (k0, f v) :: rest else (k0, v) :: updateAssoc rest k f

/-- `add_op`: `resources.setdefault(name, ...)["ops"].append(op)`. -/
def pushOp (st : BState) (k : String) (op : Op) : BState :=
  updateAssoc st k (fun ops => ops ++ [op])

/-- The `seen[resource]` registry, recomputed from the accumulated ops. -/
def namesAt (st : BState) (k : String) : List String := (lookupD st k).map (·.name)

/-- Python string comparison (used by `sorted(..., key=lambda r: r["name"])`):
lexicographic on code points. -/
def strLeB : List Char → List Char → Bool
  | [], _ => true
  | _ :: _, [] => false
  | a :: as, b :: bs =>
    if a.toNat < b.toNat then true
    else if b.toNat < a.toNat then false
    else strLeB as bs

def strLe (a b : String) : Prop := strLeB a.data b.data = true

def resLe (a b : Resource) : Prop := strLe a.name b.name

instance : DecidableRel resLe := fun a b =>
  inferInstanceAs (Decidable (strLeB a.name.data b.name.data = true))

instance : IsTotal Resource resLe :=
  ⟨fun x y => by
    show strLeB x.name.data y.name.data = true ∨ strLeB y.name.data x.name.data = true
    generalize x.name.data = as
    generalize y.name.data = bs
    induction as generalizing bs with
    | nil => left; rfl
    | cons a as ih =>
      cases bs with
      | nil => right; rfl
      | cons b bs =>
        rw [strLeB, strLeB]
        by_cases h1 : a.toNat < b.toNat
        · left
          rw [if_pos h1]
        · by_cases h2 : b.toNat < a.toNat
          · right
            rw [if_pos h2]
          · rw [if_neg h1, if_neg h2, if_neg h2, if_neg h1]
            exact ih bs⟩

instance : IsTrans Resource resLe :=
  ⟨fun x y z hxy hyz => by
    show strLeB x.name.data z.name.data = true
    revert hxy hyz
    show strLeB x.name.data y.name.data = true → strLeB y.name.data z.name.data = true →
      strLeB x.name.data z.name.data = true
    generalize x.name.data = as
    generalize y.name.data = bs
    generalize z.name.data = cs
    induction as generalizing bs cs with
    | nil => intro _ _; rfl
    | cons a as ih =>
      intro h1 h2
      cases bs with
      | nil => exact absurd h1 (by rw [strLeB]; simp)
      | cons b bs =>
        cases cs with
        | nil => exact absurd h2 (by rw [strLeB]; simp)
        | cons c cs =>
          rw [strLeB] at h1 h2 ⊢
          by_cases hab : a.toNat < b.toNat
          · by_cases hbc : b.toNat < c.toNat
            · rw [if_pos (by omega : a.toNat < c.toNat)]
            · by_cases hcb : c.toNat < b.toNat
              · rw [if_neg hbc, if_pos hcb] at h2
                exact absurd h2 (by simp)
              · rw [if_pos (by omega : a.toNat < c.toNat)]
          · by_cases hba : b.toNat < a.toNat
            · rw [if_neg hab, if_pos hba] at h1
              exact absurd h1 (by simp)
            · by_cases hbc : b.toNat < c.toNat
              · rw [if_pos (by omega : a.toNat < c.toNat)]
              · by_cases hcb : c.toNat < b.toNat
                · rw [if_neg hbc, if_pos hcb] at h2
                  exact absurd h2 (by simp)
                · rw [if_neg hab, if_neg hba] at h1
                  rw [if_neg hbc, if_neg hcb] at h2
                  rw [if_neg (by omega : ¬ a.toNat < c.toNat),
                    if_neg (by omega : ¬ c.toNat < a.toNat)]
                  exact ih bs cs h1 h2⟩

/-- `sorted(resources.values(), key=lambda r: r["name"])`. -/
def sortResources (rs : List Resource) : List Resource := List.insertionSort resLe rs

def stateResources (st : BState) : List Resource := st.map (fun e => ⟨e.1, e.2⟩)

/-! ### OpenAPI importer: `build_from_openapi` (lines 144-205) -/

/-- `openapi_base_url` (lines 127-131). -/
def openapi_base_url (spec : OASpec) : String :=
  match spec.servers with
  | u :: _ => if u ≠ "" then u else "https://api.xendit.co"
  | [] => "https://api.xendit.co"

def recognizedVerbs : List String := ["get", "post", "put", "patch", "delete", "head", "options"]

/-- Resource-name derivation of line 160:
`camel_to_kebab(tags[0]) if tags else camel_to_kebab(path.split("/")[1] or "root")`.
The no-tags branch indexes element 1 of the split, which raises `IndexError`
(here: `none`) when the path contains no `/`. -/
def oaResource (path : String) (tags : List String) : Option String :=
  match tags with
  | t :: _ => some (camel_to_kebab t)
  | [] =>
    match (pySplit '/' path.data).get? 1 with
    | some seg => some (camel_to_kebab (if seg = [] then "root" else seg.asString))
    | none => none

/-- The parameter filter of lines 173-186. -/
def oaParams (l : List OAParam) : List Param :=
  l.filterMap (fun p =>
    if p.name ≠ "" ∧ (p.location = "path" ∨ p.location = "query") then
      some {name := p.name, flag := camel_to_kebab p.name, location := p.location,
            required := p.required || decide (p.location = "path")}
    else none)

/-- `details.get("summary") or details.get("description")`. -/
def oaDescription (d : OADetails) : String :=
  if d.summary ≠ "" then d.summary else d.description

/-- One `(method, details)` step of the `build_from_openapi` loop
(lines 155-199); `none` models the uncaught `IndexError` of line 160. -/
def oaAddOp (st : BState) (path method : String) (d : OADetails) : Option BState :=
  if recognizedVerbs.contains (strToLower method) then
    match oaResource path d.tags with
    | none => none
    | some resource =>
      let used := namesAt st resource
      let base :=
        normalize_op_name (if d.operationId ≠ "" then d.operationId else method ++ "-" ++ path)
      let opName := oaFresh used base method
      let op : Op := {
        name := opName
        method := strToUpper method
        path := path
        description := oaDescription d
        params := oaParams d.parameters
        has_body := d.requestBody }
      some (pushOp st resource op)
  else some st

/-- `build_from_openapi` (gen_command_tree.py lines 144-205). -/
def build_from_openapi (spec : OASpec) : Option Tree :=
  (spec.paths.foldlM (fun st (pm : String × Option (List (String × OADetails))) =>
    match pm.2 with
    | none => some st
    | some methods =>
      methods.foldlM (fun st2 (md : String × OADetails) => oaAddOp st2 pm.1 md.1 md.2) st)
    ([] : BState)).map
    (fun st => {version := 1, base_url := openapi_base_url spec,
                resources := sortResources (stateResources st)})

/-! ### Postman importer: `build_from_postman` (lines 208-261) -/

/-- `postman_base_url` (lines 134-141): first matching variable with a truthy
value wins; a matching key with a falsy value is skipped and scanning
continues. -/
def postman_base_url (spec : PMSpec) : String :=
  match spec.vars.find? (fun v =>
    ["base_url", "baseurl", "api_url", "apiurl"].contains (strToLower v.key) && v.value != "") with
  | some v => v.value
  | none => "https://api.xendit.co"

/-- `method in \x7b"POST", "PUT", "PATCH"\x7d and body.get("mode") not in (None, "none")`. -/
def pmHasBody (method : String) (mode : Option String) : Bool :=
  (["POST", "PUT", "PATCH"].contains method) &&
    (match mode with
     | none => false
     | some m => m != "none")

/-- The request branch of `walk` (lines 232-253). -/
def pmAddRequest (st : BState) (parents : List String) (itemName itemDesc : String)
    (r : PMRequest) : BState :=
  let method := strToUpper (if r.method = "" then "GET" else r.method)
  let path := build_path r.url
  let resource := derive_resource parents path
  let base := normalize_op_name (if itemName ≠ "" then itemName else method ++ "-" ++ path)
  let opName := dedupe (namesAt st resource) base method
  let op : Op := {
    name := opName
    method := method
    path := path
    description := if itemDesc ≠ "" then itemDesc else r.description
    params := collect_params r.url path
    has_body := pmHasBody method r.bodyMode }
  pushOp st resource op

mutual

/-- The body of `walk`'s `for` loop for one item (folder or request). -/
def walkOne (st : BState) (parents : List String) : PMItem → BState
  | PMItem.folder n children => walk st (parents ++ [n]) children
  | PMItem.request n d r => pmAddRequest st parents n d r

/-- `walk` (gen_command_tree.py lines 228-255). -/
def walk (st : BState) (parents : List String) : List PMItem → BState
  | [] => st
  | i :: rest => walk (walkOne st parents i) parents rest

end

/-- `build_from_postman` (gen_command_tree.py lines 208-261). -/
def build_from_postman (spec : PMSpec) : Tree :=
  { version := 1
    base_url := postman_base_url spec
    resources := sortResources (stateResources (walk [] [] spec.items)) }

/-! ### Tree merger: `merge_trees` (lines 264-310) -/

/-- `dict.fromkeys`: deduplicate keeping first occurrences in order. -/
def dedupFirstAux (seen : List String) : List String → List String
  | [] => []
  | x :: xs =>
    if seen.contains x then dedupFirstAux seen xs else x :: dedupFirstAux (x :: seen) xs

def dedupFirst (l : List String) : List String := dedupFirstAux [] l

def defaultBaseUrl : String := "https://api.xendit.co"

/-- `unique_urls` of lines 265-266. -/
def uniqueUrls (trees : List Tree) : List String :=
  (dedupFirst ((trees.map (fun t => t.base_url)).filter (fun u => u ≠ ""))).filter
    (fun u => u ≠ "")

/-- The base-URL reconciliation of lines 267-276. -/
def mergeBaseUrl (trees : List Tree) : String :=
  let u := uniqueUrls trees
  if u = [] then defaultBaseUrl
  else if u.length = 1 then u.headD ""
  else if u.contains defaultBaseUrl then defaultBaseUrl
  else u.headD ""

/-- True exactly when `merge_trees` reaches the `print(..., file=sys.stderr)`
warning branch of lines 273-276. -/
def mergeWarning (trees : List Tree) : Bool :=
  decide ((uniqueUrls trees) ≠ []) && decide ((uniqueUrls trees).length ≠ 1)

def mergeOpKey (o : Op) : String × String := (o.method, o.path)

/-- One op step of the merge loop (lines 288-304). -/
def mergeResOp (ops : List Op) (op : Op) : List Op :=
  if (ops.map mergeOpKey).contains (mergeOpKey op) then ops
  else
    let usedNames := ops.map (fun o => o.name)
    let nm :=
      if usedNames.contains op.name then mergeRename usedNames op.name op.method else op.name
    ops ++ [{op with name := nm}]

/-- One resource step of the merge loop (lines 283-304). -/
def addTreeRes (st : BState) (res : Resource) : BState :=
  updateAssoc st res.name (fun ops => res.ops.foldl mergeResOp ops)

def mergeState (trees : List Tree) : BState :=
  trees.foldl (fun st t => t.resources.foldl addTreeRes st) []

/-- `merge_trees` (gen_command_tree.py lines 264-310). -/
def merge_trees (trees : List Tree) : Tree :=
  { version := 1
    base_url := mergeBaseUrl trees
    resources := sortResources (stateResources (mergeState trees)) }

/-! ### Builder-state invariants -/

def KeysOK (st : BState) : Prop := (st.map Prod.fst).Nodup

def NamesOK (st : BState) : Prop := ∀ e ∈ st, ((e.2.map (fun o : Op => o.name)).Nodup)

def AllOps (P : Op → Prop) (st : BState) : Prop := ∀ e ∈ st, ∀ o ∈ e.2, P o

/-! ### The output invariants (claim C7's properties) -/

/-- The spec's uniqueness and ordering invariants for a produced tree:
resource names pairwise distinct, resources sorted by name, and operation
names pairwise distinct within each resource. -/
def TreeInv (t : Tree) : Prop :=
  (t.resources.map (fun r => r.name)).Nodup ∧
  (t.resources.map (fun r => r.name)).Sorted strLe ∧
  ∀ r ∈ t.resources, ((r.ops.map (fun o => o.name)).Nodup)

/-! ### Invariant preservation through the three builders -/

def StOK (st : BState) : Prop := KeysOK st ∧ NamesOK st

/-- Operations produced by the OpenAPI importer carry exactly the filtered
declared parameters. -/
def OAShape (op : Op) : Prop := ∃ l, op.params = oaParams l

/-- Operations produced by the Postman importer carry exactly
`collect_params url path` for their own path. -/
def PMShape (op : Op) : Prop := ∃ url, op.params = collect_params url op.path

mutual

def pmItemSize : PMItem → Nat
  | .folder _ children => 1 + pmListSize children
  | .request _ _ _ => 1

def pmListSize : List PMItem → Nat
  | [] => 0
  | i :: rest => pmItemSize i + pmListSize rest

end

/-- The location/required discipline of every entry `collect_params` keeps. -/
def PEnt (e : (String × String) × Param) : Prop :=
  (e.2.location = "path" → e.2.required = true) ∧
  (e.2.location = "query" → e.2.required = false)

/-! ### Claim C1 -/

/-- Path-parameter completeness of one operation: every placeholder extracted
from its path has a matching path-location parameter. -/
def pathComplete (op : Op) : Bool :=
  (extract_path_params op.path).all (fun n =>
    op.params.any (fun p => p.location == "path" && p.name == n))

/-- A live `("path", n)` entry with matching name in the params dict. -/
def QEnt (n : String) (ps : List ((String × String) × Param)) : Prop :=
  ∃ e ∈ ps, e.1 = ("path", n) ∧ e.2.location = "path" ∧ e.2.name = n

/-! ### Claim C5 -/

/-- Everything of an operation except its name. -/
def opCore (o : Op) : String × String × String × List Param × Bool :=
  (o.method, o.path, o.description, o.params, o.has_body)

/-- Modelled from the spec: the first-source-wins selection — scan the
operations in order and keep each one whose `(method, path)` key has not been
seen before, dropping the rest. -/
def firstWinsAux (seen : List (String × String)) : List Op → List Op
  | [] => []
  | op :: rest =>
    if seen.contains (mergeOpKey op) then firstWinsAux seen rest
    else op :: firstWinsAux (seen ++ [mergeOpKey op]) rest

/-- Modelled from the spec: `firstWinsAux` starting with nothing seen. -/
def firstWins (l : List Op) : List Op := firstWinsAux [] l

/-- The operations the resources named `r` contribute, in order. -/
def resOpsFor (rs : List Resource) (r : String) : List Op :=
  ((rs.filter (fun res => res.name = r)).map (fun res => res.ops)).flatten

/-- All operations the input trees contribute to resource `r`, in
caller-supplied order. -/
def treeOpsFor (trees : List Tree) (r : String) : List Op :=
  (trees.map (fun t => resOpsFor t.resources r)).flatten

/-! ## Theorems -/

/-! ### Character-class facts -/

theorem uint32_le_iff_toNat (a b : UInt32) : a ≤ b ↔ a.toNat ≤ b.toNat := by
  rw [UInt32.le_def, BitVec.le_def]
  rfl

theorem char_isLower_iff (c : Char) : c.isLower = true ↔ 97 ≤ c.toNat ∧ c.toNat ≤ 122 := by
  simp only [Char.isLower, Bool.and_eq_true, decide_eq_true_eq, ge_iff_le, uint32_le_iff_toNat]
  simp [Char.toNat, UInt32.size]

theorem char_isUpper_iff (c : Char) : c.isUpper = true ↔ 65 ≤ c.toNat ∧ c.toNat ≤ 90 := by
  simp only [Char.isUpper, Bool.and_eq_true, decide_eq_true_eq, ge_iff_le, uint32_le_iff_toNat]
  simp [Char.toNat, UInt32.size]

theorem char_isDigit_iff (c : Char) : c.isDigit = true ↔ 48 ≤ c.toNat ∧ c.toNat ≤ 57 := by
  simp only [Char.isDigit, Bool.and_eq_true, decide_eq_true_eq, ge_iff_le, uint32_le_iff_toNat]
  simp [Char.toNat, UInt32.size]

theorem char_toNat_ofNat_of_lt {n : Nat} (h : n < 0xD800) : (Char.ofNat n).toNat = n := by
  have hv : n.isValidChar := Or.inl h
  simp only [Char.ofNat, hv, dif_pos]
  simp [Char.ofNatAux, Char.toNat, UInt32.toNat, UInt32.ofNatCore]

theorem char_toLower_eq_self {c : Char} (h : c.isUpper = false) : c.toLower = c := by
  rw [Char.toLower, if_neg]
  intro hc
  rw [← Bool.not_eq_true, char_isUpper_iff] at h
  exact h hc

theorem char_isLower_toLower_of_isUpper {c : Char} (h : c.isUpper = true) :
    (c.toLower).isLower = true := by
  rw [char_isUpper_iff] at h
  rw [Char.toLower, if_pos (by omega)]
  rw [char_isLower_iff, char_toNat_ofNat_of_lt (by omega)]
  omega

theorem char_isDigit_toLower {c : Char} (h : c.isDigit = true) : c.toLower = c := by
  apply char_toLower_eq_self
  rw [char_isDigit_iff] at h
  rw [← Bool.not_eq_true, char_isUpper_iff]
  omega

theorem char_eq_of_toNat_eq {a b : Char} (h : a.toNat = b.toNat) : a = b := by
  have := congrArg Char.ofNat h
  rwa [Char.ofNat_toNat, Char.ofNat_toNat] at this

theorem bor_mp {a b : Bool} (h : (a || b) = true) : a = true ∨ b = true := by
  simpa using h

theorem band_mp {a b : Bool} (h : (a && b) = true) : a = true ∧ b = true := by
  simpa using h

theorem natDigits_of_lt {n : Nat} (h : n < 10) : natDigits n = [Nat.digitChar n] := by
  rw [natDigits, dif_pos h]

theorem natDigits_of_ge {n : Nat} (h : ¬ n < 10) :
    natDigits n = natDigits (n / 10) ++ [Nat.digitChar (n % 10)] := by
  conv_lhs => rw [natDigits]
  rw [dif_neg h]

theorem toDigitsCore_eq_natDigits :
    ∀ (fuel n : Nat) (ds : List Char), n < fuel →
      Nat.toDigitsCore 10 fuel n ds = natDigits n ++ ds := by
  intro fuel
  induction fuel with
  | zero => omega
  | succ f ih =>
    intro n ds hn
    rw [Nat.toDigitsCore]
    by_cases h0 : n / 10 = 0
    · have h10 : n < 10 := by omega
      rw [if_pos h0, natDigits_of_lt h10, Nat.mod_eq_of_lt h10]
      simp
    · have h10 : ¬ n < 10 := by
        intro hlt
        exact h0 (Nat.div_eq_of_lt hlt)
      have hdiv : n / 10 < n := Nat.div_lt_self (by omega) (by omega)
      rw [if_neg h0, ih (n / 10) _ (by omega), natDigits_of_ge h10]
      simp

theorem repr_eq_natDigits (n : Nat) : Nat.repr n = (natDigits n).asString := by
  rw [Nat.repr, Nat.toDigits, toDigitsCore_eq_natDigits (n + 1) n [] (by omega)]
  simp

theorem natDigits_ne_nil (n : Nat) : natDigits n ≠ [] := by
  by_cases h : n < 10
  · simp [natDigits_of_lt h]
  · simp [natDigits_of_ge h]

theorem natDigits_isDigit (n : Nat) : ∀ c ∈ natDigits n, c.isDigit = true := by
  induction n using Nat.strong_induction_on with
  | _ n ih =>
    intro c hc
    have hdc : ∀ d, d < 10 → (Nat.digitChar d).isDigit = true := by decide
    by_cases h : n < 10
    · rw [natDigits_of_lt h] at hc
      simp at hc
      exact hc ▸ hdc n h
    · rw [natDigits_of_ge h] at hc
      rcases List.mem_append.mp hc with h1 | h2
      · exact ih (n / 10) (Nat.div_lt_self (by omega) (by omega)) c h1
      · simp at h2
        exact h2 ▸ hdc (n % 10) (Nat.mod_lt _ (by omega))

theorem natDigits_inj : ∀ m n : Nat, natDigits m = natDigits n → m = n := by
  intro m
  induction m using Nat.strong_induction_on with
  | _ m ih =>
    intro n h
    have hdc : ∀ a, a < 10 → ∀ b, b < 10 → Nat.digitChar a = Nat.digitChar b → a = b := by decide
    by_cases hm : m < 10 <;> by_cases hn : n < 10
    · rw [natDigits_of_lt hm, natDigits_of_lt hn] at h
      simp at h
      exact hdc m hm n hn h
    · rw [natDigits_of_lt hm, natDigits_of_ge hn] at h
      have hlen := congrArg List.length h
      simp at hlen
      cases hnd : natDigits (n / 10) with
      | nil => exact absurd hnd (natDigits_ne_nil (n / 10))
      | cons a l =>
        rw [hnd] at hlen
        simp at hlen
    · rw [natDigits_of_ge hm, natDigits_of_lt hn] at h
      have hlen := congrArg List.length h
      simp at hlen
      cases hmd : natDigits (m / 10) with
      | nil => exact absurd hmd (natDigits_ne_nil (m / 10))
      | cons a l =>
        rw [hmd] at hlen
        simp at hlen
    · rw [natDigits_of_ge hm, natDigits_of_ge hn] at h
      obtain ⟨h1, h2⟩ := List.append_inj' h (by simp)
      have hq : m / 10 = n / 10 :=
        ih (m / 10) (Nat.div_lt_self (by omega) (by omega)) (n / 10) h1
      have hr : m % 10 = n % 10 := by
        simp at h2
        exact hdc _ (Nat.mod_lt _ (by omega)) _ (Nat.mod_lt _ (by omega)) h2
      omega

theorem nat_repr_inj {m n : Nat} (h : Nat.repr m = Nat.repr n) : m = n := by
  rw [repr_eq_natDigits, repr_eq_natDigits] at h
  apply natDigits_inj
  have := congrArg String.data h
  simpa [List.asString] using this

theorem data_asString (l : List Char) : (l.asString).data = l := rfl

theorem repr_data_digits (n : Nat) : ∀ c ∈ (Nat.repr n).data, c.isDigit = true := by
  rw [repr_eq_natDigits, data_asString]
  exact natDigits_isDigit n

theorem repr_data_ne_nil (n : Nat) : (Nat.repr n).data ≠ [] := by
  rw [repr_eq_natDigits, data_asString]
  exact natDigits_ne_nil n

theorem goodChar_not_upper {c : Char} (h : goodChar c = true) : c.isUpper = false := by
  rw [← Bool.not_eq_true]
  intro hu
  rw [char_isUpper_iff] at hu
  rcases bor_mp h with hl | hd
  · rw [char_isLower_iff] at hl
    omega
  · rw [char_isDigit_iff] at hd
    omega

theorem digit_not_upper {c : Char} (h : c.isDigit = true) : c.isUpper = false := by
  rw [← Bool.not_eq_true]
  intro hu
  rw [char_isUpper_iff] at hu
  rw [char_isDigit_iff] at h
  omega

theorem digit_ne_dash {c : Char} (h : c.isDigit = true) : c ≠ '-' := by
  rintro rfl
  exact absurd h (by decide)

theorem digit_not_sep {c : Char} (h : c.isDigit = true) : sepChar c = false := by
  rw [← Bool.not_eq_true]
  intro hs
  simp only [sepChar, Bool.or_eq_true, decide_eq_true_eq] at hs
  rcases hs with (rfl | rfl) | rfl <;> exact absurd h (by decide)

theorem goodChar_not_sep {c : Char} (h : goodChar c = true) : sepChar c = false := by
  rw [← Bool.not_eq_true]
  intro hs
  simp only [sepChar, Bool.or_eq_true, decide_eq_true_eq] at hs
  rcases hs with (rfl | rfl) | rfl <;> exact absurd h (by decide)

theorem goodChar_keep {c : Char} (h : goodChar c = true) : keepChar c = true := by
  rcases bor_mp h with hl | hd
  · simp [keepChar, Char.isAlphanum, Char.isAlpha, hl]
  · simp [keepChar, Char.isAlphanum, hd]

theorem digit_keep {c : Char} (h : c.isDigit = true) : keepChar c = true := by
  simp [keepChar, Char.isAlphanum, h]

theorem digit_toLower {c : Char} (h : c.isDigit = true) : c.toLower = c :=
  char_isDigit_toLower h

theorem goodChar_toLower {c : Char} (h : goodChar c = true) : c.toLower = c :=
  char_toLower_eq_self (goodChar_not_upper h)

theorem char_toLower_ne_dash {c : Char} (h : c.toLower = '-') : c = '-' := by
  by_cases hu : c.isUpper = true
  · have := char_isLower_toLower_of_isUpper hu
    rw [h] at this
    exact absurd this (by decide)
  · rwa [char_toLower_eq_self (Bool.not_eq_true _ ▸ hu)] at h

/-- A generic pointwise-identity lemma for `List.map`. -/
theorem map_id_of {f : Char → Char} : ∀ {l : List Char}, (∀ c ∈ l, f c = c) → l.map f = l
  | [], _ => rfl
  | c :: r, h => by
    rw [List.map_cons, h c (by simp), map_id_of (fun x hx => h x (by simp [hx]))]

/-! Pipeline-step lemmas. -/

theorem camelPair_false_right {c1 c2 : Char} (h : c2.isUpper = false) :
    camelPair c1 c2 = false := by
  simp [camelPair, h]

theorem camelIns_eq_self : ∀ {cs : List Char}, (∀ c ∈ cs, c.isUpper = false) → camelIns cs = cs
  | [], _ => rfl
  | [_], _ => rfl
  | c1 :: c2 :: rest, h => by
    have h2 : c2.isUpper = false := h c2 (by simp)
    rw [camelIns, if_neg (by simp [camelPair_false_right h2])]
    rw [camelIns_eq_self (fun c hc => h c (List.mem_cons_of_mem _ hc))]

theorem collapse_cons (c : Char) : ∀ (r : List Char), ∃ t, collapseDashes (c :: r) = c :: t := by
  intro r
  induction r generalizing c with
  | nil => exact ⟨[], rfl⟩
  | cons c2 r ih =>
    by_cases hb : (c = '-' && c2 = '-') = true
    · obtain ⟨t, ht⟩ := ih c2
      have hc : c = '-' := by simpa using (band_mp hb).1
      have hc2 : c2 = '-' := by simpa using (band_mp hb).2
      refine ⟨t, ?_⟩
      rw [collapseDashes, if_pos hb, ht, hc, hc2]
    · rw [collapseDashes, if_neg hb]
      exact ⟨_, rfl⟩

theorem collapse_mem {x : Char} : ∀ {l : List Char}, x ∈ collapseDashes l → x ∈ l := by
  intro l
  induction l using collapseDashes.induct with
  | case1 c1 c2 rest h ih =>
    rw [collapseDashes, if_pos h]
    intro hx
    exact List.mem_cons_of_mem _ (ih hx)
  | case2 c1 c2 rest h ih =>
    rw [collapseDashes, if_neg h]
    intro hx
    rcases List.mem_cons.mp hx with rfl | hx
    · exact List.mem_cons_self _ _
    · exact List.mem_cons_of_mem _ (ih hx)
  | case3 l h1 =>
    intro hx
    cases l with
    | nil => simp [collapseDashes] at hx
    | cons a t =>
      cases t with
      | nil => simpa [collapseDashes] using hx
      | cons b u => exact absurd rfl (h1 a b u)

theorem noDoubleDash_collapse : ∀ (l : List Char), noDoubleDash (collapseDashes l) = true := by
  intro l
  induction l using collapseDashes.induct with
  | case1 c1 c2 rest h ih => rw [collapseDashes, if_pos h]; exact ih
  | case2 c1 c2 rest h ih =>
    rw [collapseDashes, if_neg h]
    obtain ⟨t, ht⟩ := collapse_cons c2 rest
    rw [ht]
    rw [ht] at ih
    rw [noDoubleDash]
    simp only [Bool.and_eq_true]
    refine ⟨?_, ih⟩
    by_cases hc1 : c1 = '-'
    · by_cases hc2 : c2 = '-'
      · subst hc1; subst hc2; simp at h
      · simp [hc1, hc2]
    · simp [hc1]
  | case3 l h1 =>
    cases l with
    | nil => rfl
    | cons a t =>
      cases t with
      | nil => rfl
      | cons b u => exact absurd rfl (h1 a b u)

theorem collapse_eq_self : ∀ {l : List Char}, noDoubleDash l = true → collapseDashes l = l := by
  intro l
  induction l using collapseDashes.induct with
  | case1 c1 c2 rest h ih =>
    intro hn
    rw [noDoubleDash, Bool.and_eq_true] at hn
    rw [h] at hn
    simp at hn
  | case2 c1 c2 rest h ih =>
    intro hn
    rw [noDoubleDash, Bool.and_eq_true] at hn
    rw [collapseDashes, if_neg h, ih hn.2]
  | case3 l h1 =>
    intro _
    cases l with
    | nil => rfl
    | cons a t =>
      cases t with
      | nil => rfl
      | cons b u => exact absurd rfl (h1 a b u)

theorem noDoubleDash_tail {c : Char} {l : List Char} (h : noDoubleDash (c :: l) = true) :
    noDoubleDash l = true := by
  cases l with
  | nil => rfl
  | cons c2 r => exact (band_mp h).2

theorem noDoubleDash_dropWhile {p : Char → Bool} :
    ∀ {l : List Char}, noDoubleDash l = true → noDoubleDash (l.dropWhile p) = true := by
  intro l
  induction l with
  | nil => intro h; exact h
  | cons c r ih =>
    intro h
    rw [List.dropWhile_cons]
    by_cases hp : p c = true
    · rw [if_pos hp]
      exact ih (noDoubleDash_tail h)
    · rw [if_neg hp]
      exact h

theorem noDoubleDash_iff_chain {l : List Char} :
    noDoubleDash l = true ↔ l.Chain' (fun a b => ¬(a = '-' ∧ b = '-')) := by
  induction l with
  | nil => simp [noDoubleDash]
  | cons c r ih =>
    cases r with
    | nil => simp [noDoubleDash]
    | cons c2 u =>
      rw [List.chain'_cons, ← ih, noDoubleDash, Bool.and_eq_true]
      constructor
      · rintro ⟨h1, h2⟩
        refine ⟨?_, h2⟩
        rintro ⟨ha, hb⟩
        rw [ha, hb] at h1
        simp at h1
      · rintro ⟨h1, h2⟩
        refine ⟨?_, h2⟩
        by_cases hc : c = '-'
        · by_cases hc2 : c2 = '-'
          · exact absurd ⟨hc, hc2⟩ h1
          · simp [hc, hc2]
        · simp [hc]

theorem noDoubleDash_reverse {l : List Char} (h : noDoubleDash l = true) :
    noDoubleDash l.reverse = true := by
  rw [noDoubleDash_iff_chain] at h ⊢
  rw [List.chain'_reverse]
  exact h.imp (fun hab => by tauto)

theorem head?_dropWhile_dash : ∀ (l : List Char), (l.dropWhile isDash).head? ≠ some '-' := by
  intro l
  induction l with
  | nil => simp
  | cons c r ih =>
    rw [List.dropWhile_cons]
    by_cases hp : isDash c = true
    · rw [if_pos hp]
      exact ih
    · rw [if_neg hp]
      simp only [List.head?_cons, ne_eq, Option.some.injEq]
      rintro rfl
      exact hp (by rfl)

theorem dropWhile_dash_eq_self {l : List Char} (h : l.head? ≠ some '-') :
    l.dropWhile isDash = l := by
  cases l with
  | nil => rfl
  | cons c r =>
    rw [List.dropWhile_cons, if_neg]
    intro hc
    apply h
    simp only [List.head?_cons, Option.some.injEq]
    simpa [isDash] using hc

theorem strip_eq_self {l : List Char} (h1 : l.head? ≠ some '-') (h2 : l.getLast? ≠ some '-') :
    stripDashes l = l := by
  rw [stripDashes, dropWhile_dash_eq_self h1, dropWhile_dash_eq_self (by
    rw [List.head?_reverse]
    exact h2)]
  exact List.reverse_reverse l

theorem strip_mem {x : Char} {l : List Char} (h : x ∈ stripDashes l) : x ∈ l := by
  rw [stripDashes] at h
  rw [List.mem_reverse] at h
  have h1 := (List.dropWhile_sublist isDash).mem h
  rw [List.mem_reverse] at h1
  exact (List.dropWhile_sublist isDash).mem h1

theorem noDoubleDash_strip {l : List Char} (h : noDoubleDash l = true) :
    noDoubleDash (stripDashes l) = true := by
  rw [stripDashes]
  exact noDoubleDash_reverse (noDoubleDash_dropWhile (noDoubleDash_reverse (noDoubleDash_dropWhile h)))

theorem getLast?_dropWhile_of_ne_nil {p : Char → Bool} {l : List Char}
    (h : l.dropWhile p ≠ []) : (l.dropWhile p).getLast? = l.getLast? := by
  conv_rhs => rw [← List.takeWhile_append_dropWhile p l]
  rw [List.getLast?_append]
  cases hd : (l.dropWhile p).getLast? with
  | none =>
    cases hl : l.dropWhile p with
    | nil => exact absurd hl h
    | cons a t => rw [hl] at hd; simp [List.getLast?_cons] at hd
  | some x => simp

theorem head?_strip_ne_dash (l : List Char) : (stripDashes l).head? ≠ some '-' := by
  rw [stripDashes, List.head?_reverse]
  by_cases h : (List.dropWhile isDash (List.dropWhile isDash l).reverse) = []
  · rw [h]
    simp
  · rw [getLast?_dropWhile_of_ne_nil h, List.getLast?_reverse]
    exact head?_dropWhile_dash l

theorem getLast?_strip_ne_dash (l : List Char) : (stripDashes l).getLast? ≠ some '-' := by
  rw [stripDashes, List.getLast?_reverse]
  exact head?_dropWhile_dash _

theorem noDoubleDash_map_toLower :
    ∀ {l : List Char}, noDoubleDash l = true → noDoubleDash (l.map Char.toLower) = true := by
  intro l
  induction l with
  | nil => intro h; exact h
  | cons c r ih =>
    intro h
    cases r with
    | nil => rfl
    | cons c2 u =>
      rw [noDoubleDash, Bool.and_eq_true] at h
      rw [List.map_cons, List.map_cons, noDoubleDash, Bool.and_eq_true]
      constructor
      · have h1 : ¬(c = '-' ∧ c2 = '-') := by
          rintro ⟨ha, hb⟩
          have := h.1
          rw [ha, hb] at this
          simp at this
        by_cases hcc : c.toLower = '-'
        · by_cases hcc2 : c2.toLower = '-'
          · exact absurd ⟨char_toLower_ne_dash hcc, char_toLower_ne_dash hcc2⟩ h1
          · simp [hcc, hcc2]
        · simp [hcc]
      · have := ih h.2
        simpa using this

theorem head?_map_ne_dash {l : List Char} (h : l.head? ≠ some '-') :
    (l.map Char.toLower).head? ≠ some '-' := by
  cases l with
  | nil => simp
  | cons c r =>
    simp only [List.map_cons, List.head?_cons, ne_eq, Option.some.injEq] at h ⊢
    intro he
    exact h (char_toLower_ne_dash he)

theorem getLast?_map_ne_dash {l : List Char} (h : l.getLast? ≠ some '-') :
    (l.map Char.toLower).getLast? ≠ some '-' := by
  rw [← List.head?_reverse] at h
  rw [← List.head?_reverse, ← List.map_reverse]
  exact head?_map_ne_dash h

/-! ### The normalizer always produces canonical kebab case, and fixes it -/

theorem keep_badToDash {l : List Char} : ∀ x ∈ badToDash l, keepChar x = true := by
  intro x hx
  rw [badToDash] at hx
  obtain ⟨c, _, hc⟩ := List.mem_map.mp hx
  by_cases hk : keepChar c = true
  · rw [if_pos hk] at hc
    exact hc ▸ hk
  · rw [if_neg hk] at hc
    exact hc ▸ (by decide)

theorem keep_toLower_good {c : Char} (h : keepChar c = true) :
    goodChar c.toLower = true ∨ c.toLower = '-' := by
  by_cases hu : c.isUpper = true
  · left
    simp [goodChar, char_isLower_toLower_of_isUpper hu]
  · rw [char_toLower_eq_self (Bool.not_eq_true _ ▸ hu)]
    rcases bor_mp h with ha | hd
    · left
      rw [Char.isAlphanum, Char.isAlpha] at ha
      rcases bor_mp ha with hab | hdd
      · rcases bor_mp hab with hup | hlo
        · exact absurd hup (Bool.not_eq_true _ ▸ hu)
        · simp [goodChar, hlo]
      · simp [goodChar, hdd]
    · right
      simpa using hd

theorem kebab_isKebab (cs : List Char) : isKebabChars (kebabChars cs) = true := by
  rw [kebabChars, isKebabChars]
  simp only [Bool.and_eq_true, List.all_eq_true, bne_iff_ne, ne_eq]
  refine ⟨⟨⟨?_, ?_⟩, ?_⟩, ?_⟩
  · intro x hx
    obtain ⟨c, hc, hcx⟩ := List.mem_map.mp hx
    have hk : keepChar c = true :=
      keep_badToDash c (collapse_mem (strip_mem hc))
    rcases keep_toLower_good hk with hg | hd
    · simp [← hcx, hg]
    · simp [← hcx, hd]
  · exact noDoubleDash_map_toLower (noDoubleDash_strip (noDoubleDash_collapse _))
  · exact head?_map_ne_dash (head?_strip_ne_dash _)
  · exact getLast?_map_ne_dash (getLast?_strip_ne_dash _)

theorem kebab_fixed {cs : List Char} (h : isKebabChars cs = true) : kebabChars cs = cs := by
  rw [isKebabChars] at h
  simp only [Bool.and_eq_true, List.all_eq_true, bne_iff_ne, ne_eq] at h
  obtain ⟨⟨⟨hall0, hndd⟩, hhead⟩, hlast⟩ := h
  have hall : ∀ c ∈ cs, goodChar c = true ∨ c = '-' := fun c hc => by
    rcases bor_mp (hall0 c hc) with hg | hd
    · exact Or.inl hg
    · exact Or.inr (by simpa using hd)
  have e1 : mapSep cs = cs := map_id_of (fun c hc => by
    rcases hall c hc with hg | hd
    · rw [if_neg]
      simp [goodChar_not_sep hg]
    · rw [if_neg]
      subst hd
      decide)
  have e2 : camelIns cs = cs := camelIns_eq_self (fun c hc => by
    rcases hall c hc with hg | hd
    · exact goodChar_not_upper hg
    · subst hd; decide)
  have e3 : badToDash cs = cs := map_id_of (fun c hc => by
    rcases hall c hc with hg | hd
    · rw [if_pos (goodChar_keep hg)]
    · subst hd; decide)
  have e4 : collapseDashes cs = cs := collapse_eq_self hndd
  have e5 : stripDashes cs = cs := strip_eq_self hhead hlast
  have e6 : cs.map Char.toLower = cs := map_id_of (fun c hc => by
    rcases hall c hc with hg | hd
    · exact goodChar_toLower hg
    · subst hd; decide)
  rw [kebabChars, e1, e2, e3, e4, e5, e6]

theorem asString_data (s : String) : s.data.asString = s := by
  cases s
  rfl

theorem asString_ne_empty {l : List Char} (h : l ≠ []) : l.asString ≠ "" := by
  intro he
  apply h
  have := congrArg String.data he
  rwa [data_asString] at this

theorem camel_isKebab (s : String) : IsKebab (camel_to_kebab s) := by
  rw [IsKebab, camel_to_kebab, data_asString]
  exact kebab_isKebab _

theorem normalize_isKebab (s : String) : IsKebab (normalize_op_name s) := by
  rw [normalize_op_name]
  by_cases h : camel_to_kebab s = ""
  · rw [if_pos h]
    exact (by decide : isKebabChars ("call" : String).data = true)
  · rw [if_neg h]
    exact camel_isKebab s

theorem normalize_ne_empty (s : String) : normalize_op_name s ≠ "" := by
  rw [normalize_op_name]
  by_cases h : camel_to_kebab s = ""
  · rw [if_pos h]
    decide
  · rw [if_neg h]
    exact h

/-! ### Appending `-<digits>` to a string commutes with normalization

`camel_to_kebab (s ++ "-" ++ d)`, for a nonempty ASCII-digit string `d`,
equals a stem depending only on `s`, followed by `d` itself.  This is the key
structural fact behind the numeric-suffix collision loops: distinct numeric
suffixes produce distinct candidate names, and appending a suffix to an
already-canonical name leaves the name a strict prefix. -/

theorem ndd_of_no_dash : ∀ {l : List Char}, (∀ c ∈ l, c ≠ '-') → noDoubleDash l = true := by
  intro l
  induction l with
  | nil => intro _; rfl
  | cons c r ih =>
    intro h
    cases r with
    | nil => rfl
    | cons c2 u =>
      rw [noDoubleDash, Bool.and_eq_true]
      refine ⟨?_, ih (fun x hx => h x (List.mem_cons_of_mem _ hx))⟩
      simp [h c (List.mem_cons_self _ _)]

theorem camelIns_cons2 (c1 c2 : Char) (r : List Char) :
    camelIns (c1 :: c2 :: r) =
      if camelPair c1 c2 then c1 :: '-' :: camelIns (c2 :: r) else c1 :: camelIns (c2 :: r) := rfl

theorem collapse_cons2 (c1 c2 : Char) (r : List Char) :
    collapseDashes (c1 :: c2 :: r) =
      if c1 = '-' && c2 = '-' then collapseDashes (c2 :: r) else c1 :: collapseDashes (c2 :: r) := rfl

theorem camelIns_append_single :
    ∀ (xs : List Char) {y : Char} {ds : List Char}, y.isUpper = false →
      (∀ c ∈ ds, c.isUpper = false) →
      camelIns (xs ++ y :: ds) = camelIns (xs ++ [y]) ++ ds := by
  intro xs
  induction xs with
  | nil =>
    intro y ds hy hds
    simp only [List.nil_append]
    rw [camelIns_eq_self (fun c hc => by
      rcases List.mem_cons.mp hc with rfl | hc
      · exact hy
      · exact hds c hc)]
    rfl
  | cons x xs ih =>
    intro y ds hy hds
    cases xs with
    | nil =>
      simp only [List.cons_append, List.nil_append]
      rw [camelIns_cons2 x y ds, camelIns_cons2 x y []]
      rw [if_neg (by simp [camelPair_false_right hy]), if_neg (by simp [camelPair_false_right hy])]
      rw [camelIns_eq_self (fun c hc => by
        rcases List.mem_cons.mp hc with rfl | hc
        · exact hy
        · exact hds c hc)]
      rfl
    | cons x2 xs2 =>
      simp only [List.cons_append] at ih ⊢
      rw [camelIns_cons2 x x2 (xs2 ++ y :: ds), camelIns_cons2 x x2 (xs2 ++ [y])]
      by_cases hp : camelPair x x2 = true
      · rw [if_pos hp, if_pos hp, ih hy hds]
        simp
      · rw [if_neg hp, if_neg hp, ih hy hds]
        simp

theorem collapse_append_nodash :
    ∀ (zs : List Char) {ds : List Char}, (∀ c ∈ ds, c ≠ '-') →
      collapseDashes (zs ++ ds) = collapseDashes zs ++ ds := by
  intro zs
  induction zs with
  | nil =>
    intro ds hds
    simp only [List.nil_append]
    rw [collapse_eq_self (ndd_of_no_dash hds)]
    rfl
  | cons z zs ih =>
    intro ds hds
    cases zs with
    | nil =>
      simp only [List.cons_append, List.nil_append]
      cases ds with
      | nil => simp
      | cons d ds' =>
        rw [collapse_cons2 z d ds']
        rw [if_neg (by simp [hds d (List.mem_cons_self _ _)])]
        rw [collapse_eq_self (ndd_of_no_dash hds)]
        rfl
    | cons z2 zs2 =>
      simp only [List.cons_append] at ih ⊢
      rw [collapse_cons2 z z2 (zs2 ++ ds), collapse_cons2 z z2 zs2]
      by_cases hp : (z = '-' && z2 = '-') = true
      · rw [if_pos hp, if_pos hp]
        exact ih hds
      · rw [if_neg hp, if_neg hp, ih hds]
        rfl

theorem dropWhile_append_char (p : Char → Bool) :
    ∀ (xs ys : List Char),
      List.dropWhile p (xs ++ ys) =
        if xs.all p then List.dropWhile p ys else List.dropWhile p xs ++ ys := by
  intro xs
  induction xs with
  | nil => intro ys; simp
  | cons x xs ih =>
    intro ys
    by_cases hp : p x = true
    · by_cases hall : xs.all p = true
      · rw [if_pos (by simp [hp, hall])]
        simp only [List.cons_append, List.dropWhile_cons, if_pos hp]
        rw [ih ys, if_pos hall]
      · rw [if_neg (by simp [hp, hall])]
        simp only [List.cons_append, List.dropWhile_cons, if_pos hp]
        rw [ih ys, if_neg hall]
    · rw [if_neg (by simp [hp])]
      simp only [List.cons_append, List.dropWhile_cons, if_neg hp]

theorem strip_append_digits {W ds : List Char} (hne : ds ≠ [])
    (hds : ∀ c ∈ ds, c.isDigit = true) :
    stripDashes (W ++ ds) = W.dropWhile isDash ++ ds := by
  have hdshead : ds.head? ≠ some '-' := by
    cases ds with
    | nil => simp
    | cons d ds' =>
      simp only [List.head?_cons, ne_eq, Option.some.injEq]
      exact digit_ne_dash (hds d (List.mem_cons_self _ _))
  have hdsrev : (ds.reverse).head? ≠ some '-' := by
    rw [List.head?_reverse, List.getLast?_eq_getLast ds hne]
    simp only [ne_eq, Option.some.injEq]
    exact digit_ne_dash (hds _ (List.getLast_mem hne))
  rw [stripDashes, dropWhile_append_char]
  by_cases hall : W.all isDash = true
  · rw [if_pos hall, dropWhile_dash_eq_self hdshead,
      dropWhile_dash_eq_self hdsrev, List.reverse_reverse]
    rw [List.dropWhile_eq_nil_iff.mpr (by simpa using hall)]
    simp
  · rw [if_neg hall, List.reverse_append,
      dropWhile_dash_eq_self (by
        rw [List.head?_append_of_ne_nil _ (by simpa using hne)]
        exact hdsrev),
      List.reverse_append, List.reverse_reverse, List.reverse_reverse]

theorem kebab_append_digits {cs ds : List Char} (hne : ds ≠ [])
    (hds : ∀ c ∈ ds, c.isDigit = true) :
    kebabChars (cs ++ '-' :: ds) = kebabStem cs ++ ds := by
  rw [kebabChars]
  have h1 : mapSep (cs ++ '-' :: ds) = mapSep cs ++ '-' :: ds := by
    rw [mapSep, List.map_append]
    rw [← mapSep]
    congr 1
    exact map_id_of (fun c hc => by
      rcases List.mem_cons.mp hc with rfl | hc
      · decide
      · rw [if_neg]
        simp [digit_not_sep (hds c hc)])
  have h2 : camelIns (mapSep cs ++ '-' :: ds) = camelIns (mapSep cs ++ ['-']) ++ ds :=
    camelIns_append_single _ (by decide) (fun c hc => digit_not_upper (hds c hc))
  have h3 : badToDash (camelIns (mapSep cs ++ ['-']) ++ ds) =
      badToDash (camelIns (mapSep cs ++ ['-'])) ++ ds := by
    rw [badToDash, List.map_append, ← badToDash, ← badToDash]
    congr 1
    exact map_id_of (fun c hc => by rw [if_pos (digit_keep (hds c hc))])
  rw [h1, h2, h3, collapse_append_nodash _ (fun c hc => digit_ne_dash (hds c hc)),
    strip_append_digits hne hds, List.map_append,
    map_id_of (fun c hc => digit_toLower (hds c hc))]
  rfl

theorem data_append_dash_repr (s : String) (n : Nat) :
    (s ++ "-" ++ Nat.repr n).data = s.data ++ '-' :: (Nat.repr n).data := by
  rw [String.data_append, String.data_append]
  simp

theorem camel_append_repr (s : String) (n : Nat) :
    camel_to_kebab (s ++ "-" ++ Nat.repr n) = (kebabStem s.data ++ (Nat.repr n).data).asString := by
  rw [camel_to_kebab, data_append_dash_repr,
    kebab_append_digits (repr_data_ne_nil n) (repr_data_digits n)]

theorem normalize_append_repr (s : String) (n : Nat) :
    normalize_op_name (s ++ "-" ++ Nat.repr n) =
      (kebabStem s.data ++ (Nat.repr n).data).asString := by
  rw [normalize_op_name, camel_append_repr, if_neg]
  apply asString_ne_empty
  intro h
  exact repr_data_ne_nil n (by
    have := congrArg (List.drop (kebabStem s.data).length) h
    simpa using this)

theorem normalize_append_repr_inj {s : String} {i j : Nat}
    (h : normalize_op_name (s ++ "-" ++ Nat.repr i) = normalize_op_name (s ++ "-" ++ Nat.repr j)) :
    i = j := by
  rw [normalize_append_repr, normalize_append_repr] at h
  have hl := congrArg String.data h
  rw [data_asString, data_asString] at hl
  have := List.append_cancel_left hl
  apply nat_repr_inj
  calc Nat.repr i = (Nat.repr i).data.asString := (asString_data _).symm
    _ = (Nat.repr j).data.asString := by rw [this]
    _ = Nat.repr j := asString_data _

/-! ### Canonical strings extended by `-<digits>` stay canonical -/

theorem ndd_dash_digits {ds : List Char} (hds : ∀ c ∈ ds, c.isDigit = true) :
    noDoubleDash ('-' :: ds) = true := by
  cases ds with
  | nil => rfl
  | cons d ds' =>
    rw [noDoubleDash, Bool.and_eq_true]
    constructor
    · simp [digit_ne_dash (hds d (List.mem_cons_self _ _))]
    · exact ndd_of_no_dash (fun x hx => digit_ne_dash (hds x hx))

theorem isKebab_append_digits {cs ds : List Char} (hk : isKebabChars cs = true) (hcs : cs ≠ [])
    (hne : ds ≠ []) (hds : ∀ c ∈ ds, c.isDigit = true) :
    isKebabChars (cs ++ '-' :: ds) = true := by
  rw [isKebabChars] at hk
  simp only [Bool.and_eq_true, List.all_eq_true, bne_iff_ne, ne_eq] at hk
  obtain ⟨⟨⟨hall, hndd⟩, hhead⟩, hlast⟩ := hk
  rw [isKebabChars]
  simp only [Bool.and_eq_true, List.all_eq_true, bne_iff_ne, ne_eq]
  refine ⟨⟨⟨?_, ?_⟩, ?_⟩, ?_⟩
  · intro x hx
    rcases List.mem_append.mp hx with hx | hx
    · exact hall x hx
    · rcases List.mem_cons.mp hx with rfl | hx
      · simp
      · simp [goodChar, hds x hx]
  · rw [noDoubleDash_iff_chain, List.chain'_append]
    refine ⟨noDoubleDash_iff_chain.mp hndd, noDoubleDash_iff_chain.mp (ndd_dash_digits hds), ?_⟩
    intro x hx y hy
    simp only [List.head?_cons, Option.mem_def, Option.some.injEq] at hy
    rintro ⟨hx', rfl⟩
    exact hlast (by rw [← hx']; exact Option.mem_def.mp hx)
  · rw [List.head?_append_of_ne_nil _ hcs]
    exact hhead
  · rw [← List.head?_reverse, List.reverse_append]
    have hrev : ('-' :: ds).reverse = ds.reverse ++ ['-'] := by simp
    rw [hrev, List.append_assoc, List.head?_append_of_ne_nil _ (by simpa using hne)]
    rw [List.head?_reverse, List.getLast?_eq_getLast ds hne]
    simp only [Option.some.injEq]
    exact digit_ne_dash (hds _ (List.getLast_mem hne))

theorem string_data_ne_nil {s : String} (h : s ≠ "") : s.data ≠ [] := by
  intro hd
  apply h
  calc s = s.data.asString := (asString_data s).symm
    _ = "" := by rw [hd]; rfl

theorem append_dash_repr_ne_empty (c : String) (n : Nat) : c ++ "-" ++ Nat.repr n ≠ "" := by
  intro h
  have := congrArg String.data h
  rw [data_append_dash_repr] at this
  simp at this

theorem isKebab_append_repr {c : String} (hk : IsKebab c) (hc : c ≠ "") (n : Nat) :
    IsKebab (c ++ "-" ++ Nat.repr n) := by
  rw [IsKebab, data_append_dash_repr]
  exact isKebab_append_digits hk (string_data_ne_nil hc) (repr_data_ne_nil n) (repr_data_digits n)

theorem normalize_kebab_append_repr {c : String} (hk : IsKebab c) (hc : c ≠ "") (n : Nat) :
    normalize_op_name (c ++ "-" ++ Nat.repr n) = c ++ "-" ++ Nat.repr n := by
  have hfix : camel_to_kebab (c ++ "-" ++ Nat.repr n) = c ++ "-" ++ Nat.repr n := by
    rw [camel_to_kebab, kebab_fixed (isKebab_append_repr hk hc n), asString_data]
  rw [normalize_op_name, hfix, if_neg (append_dash_repr_ne_empty c n)]

theorem length_append_dash_repr (c : String) (n : Nat) :
    (c ++ "-" ++ Nat.repr n).length = c.length + 1 + (Nat.repr n).length := by
  rw [String.length_append, String.length_append]
  rfl

theorem contains_iff_mem {l : List String} {a : String} : l.contains a = true ↔ a ∈ l :=
  List.elem_iff

theorem not_mem_of_contains_false {l : List String} {a : String} (h : l.contains a = false) :
    a ∉ l := by
  intro hm
  rw [← contains_iff_mem] at hm
  rw [h] at hm
  exact absurd hm (by simp)

/-- Distinct numeric suffixes give distinct candidates, so among
`used.length + 1` candidates one is fresh. -/
theorem exists_fresh_suffix (used : List String) (name : String) :
    ∃ j, 2 ≤ j ∧ j < 2 + (used.length + 1) ∧
      normalize_op_name (name ++ "-" ++ Nat.repr j) ∉ used := by
  by_contra hcon
  push_neg at hcon
  set f : Nat → String := fun j => normalize_op_name (name ++ "-" ++ Nat.repr j) with hf
  have hinj : Function.Injective f := fun i j h => normalize_append_repr_inj h
  set C : List String := (List.range' 2 (used.length + 1)).map f with hC
  have hnodup : C.Nodup := (List.nodup_range' 2 (used.length + 1)).map hinj
  have hsub : ∀ x ∈ C, x ∈ used := by
    intro x hx
    obtain ⟨j, hj, rfl⟩ := List.mem_map.mp hx
    obtain ⟨i, hi, rfl⟩ := List.mem_range'.mp hj
    exact hcon (2 + 1 * i) (by omega) (by omega)
  have h1 : C.toFinset.card = C.length := List.toFinset_card_of_nodup hnodup
  have h2 : C.toFinset ⊆ used.toFinset := by
    intro x hx
    rw [List.mem_toFinset] at hx ⊢
    exact hsub x hx
  have h3 : used.toFinset.card ≤ used.length := List.toFinset_card_le used
  have h4 : C.length = used.length + 1 := by simp [hC]
  have := Finset.card_le_card h2
  omega

theorem numericRetry_not_mem {used : List String} {name : String} :
    ∀ (fuel k idx : Nat) (cand : String), k + 1 ≤ fuel →
      (cand ∉ used ∨ ∃ j, idx ≤ j ∧ j < idx + k ∧
        normalize_op_name (name ++ "-" ++ Nat.repr j) ∉ used) →
      numericRetry used name cand idx fuel ∉ used := by
  intro fuel
  induction fuel with
  | zero => omega
  | succ f ih =>
    intro k idx cand hk hdis
    rw [numericRetry]
    by_cases hc : used.contains cand = true
    · rw [if_pos hc]
      have hcand : cand ∈ used := contains_iff_mem.mp hc
      rcases hdis with hfresh | ⟨j, hj1, hj2, hj3⟩
      · exact absurd hcand hfresh
      · have hkpos : 1 ≤ k := by omega
        apply ih (k - 1) (idx + 1)
        · omega
        · by_cases hji : j = idx
          · left
            rw [← hji]
            exact hj3
          · right
            exact ⟨j, by omega, by omega, hj3⟩
    · rw [if_neg hc]
      exact not_mem_of_contains_false (by simpa using hc)

theorem numericRetry_top_not_mem (used : List String) (name cand : String) :
    numericRetry used name cand 2 (used.length + 2) ∉ used := by
  apply numericRetry_not_mem (used.length + 2) (used.length + 1) 2 cand (by omega)
  right
  obtain ⟨j, h1, h2, h3⟩ := exists_fresh_suffix used name
  exact ⟨j, h1, by omega, h3⟩

theorem dedupe_not_mem (used : List String) (name method : String) :
    dedupe used name method ∉ used := numericRetry_top_not_mem used name _

theorem mergeRename_not_mem (used : List String) (name method : String) :
    mergeRename used name method ∉ used := numericRetry_top_not_mem used name _

/-! Freshness of the accumulating OpenAPI loop: each retry strictly grows the
candidate, so candidates are pairwise distinct and the fuel suffices. -/

theorem filter_le_filter {p q : String → Bool} (himp : ∀ x, p x = true → q x = true) :
    ∀ (l : List String), (l.filter p).length ≤ (l.filter q).length := by
  intro l
  induction l with
  | nil => simp
  | cons x xs ih =>
    by_cases hp : p x = true
    · rw [List.filter_cons_of_pos hp, List.filter_cons_of_pos (himp x hp)]
      simpa using ih
    · rw [List.filter_cons_of_neg (by simpa using hp)]
      by_cases hq : q x = true
      · rw [List.filter_cons_of_pos hq]
        simp only [List.length_cons]
        omega
      · rw [List.filter_cons_of_neg (by simpa using hq)]
        exact ih

theorem filter_lt_filter {p q : String → Bool} (himp : ∀ x, p x = true → q x = true)
    {a : String} : ∀ {l : List String}, a ∈ l → q a = true → p a = false →
      (l.filter p).length < (l.filter q).length := by
  intro l
  induction l with
  | nil => simp
  | cons x xs ih =>
    intro ha hqa hpa
    rcases List.mem_cons.mp ha with rfl | ha
    · rw [List.filter_cons_of_neg (by simp [hpa]), List.filter_cons_of_pos hqa]
      simp only [List.length_cons]
      exact Nat.lt_succ_of_le (filter_le_filter himp xs)
    · by_cases hp : p x = true
      · rw [List.filter_cons_of_pos hp, List.filter_cons_of_pos (himp x hp)]
        simpa using ih ha hqa hpa
      · rw [List.filter_cons_of_neg (by simpa using hp)]
        by_cases hq : q x = true
        · rw [List.filter_cons_of_pos hq]
          exact Nat.lt_succ_of_lt (ih ha hqa hpa)
        · rw [List.filter_cons_of_neg (by simpa using hq)]
          exact ih ha hqa hpa

theorem oaNumeric_not_mem {used : List String} :
    ∀ (fuel : Nat) (cand : String) (idx : Nat), IsKebab cand → cand ≠ "" →
      (used.filter (fun u => cand.length ≤ u.length)).length < fuel →
      oaNumeric used cand idx fuel ∉ used := by
  intro fuel
  induction fuel with
  | zero => omega
  | succ f ih =>
    intro cand idx hk hre hm
    rw [oaNumeric]
    by_cases hc : used.contains cand = true
    · rw [if_pos hc]
      have hcand : cand ∈ used := contains_iff_mem.mp hc
      have heq : normalize_op_name (cand ++ "-" ++ Nat.repr idx) = cand ++ "-" ++ Nat.repr idx :=
        normalize_kebab_append_repr hk hre idx
      rw [heq]
      have hlen : cand.length < (cand ++ "-" ++ Nat.repr idx).length := by
        rw [length_append_dash_repr]
        have : (Nat.repr idx).length = (Nat.repr idx).data.length := rfl
        have h2 := repr_data_ne_nil idx
        cases hd : (Nat.repr idx).data with
        | nil => exact absurd hd h2
        | cons a l =>
          rw [this, hd]
          simp only [List.length_cons]
          omega
      apply ih _ (idx + 1)
      · exact isKebab_append_repr hk hre idx
      · exact append_dash_repr_ne_empty cand idx
      · have hdec : (used.filter
            (fun u => (cand ++ "-" ++ Nat.repr idx).length ≤ u.length)).length <
            (used.filter (fun u => cand.length ≤ u.length)).length := by
          apply filter_lt_filter
          · intro x hx
            simp only [decide_eq_true_eq] at hx ⊢
            omega
          · exact hcand
          · simp
          · simp only [decide_eq_false_iff_not]
            omega
        omega
    · rw [if_neg hc]
      exact not_mem_of_contains_false (by simpa using hc)

theorem oaFresh_not_mem (used : List String) {name : String} (method : String)
    (hk : IsKebab name) (hne : name ≠ "") : oaFresh used name method ∉ used := by
  rw [oaFresh]
  by_cases hc : used.contains name = true
  · rw [if_pos hc]
    apply oaNumeric_not_mem
    · exact normalize_isKebab _
    · exact normalize_ne_empty _
    · have := List.length_filter_le
        (fun u => (normalize_op_name (name ++ "-" ++ method)).length ≤ u.length) used
      omega
  · rw [if_neg hc]
    apply oaNumeric_not_mem
    · exact hk
    · exact hne
    · have := List.length_filter_le (fun u => name.length ≤ u.length) used
      omega

/-! ### Association-state lemmas -/

theorem lookupD_nil (k : String) : lookupD [] k = [] := rfl

theorem lookupD_cons (k0 : String) (v : List Op) (rest : BState) (k : String) :
    lookupD ((k0, v) :: rest) k = if k0 = k then v else lookupD rest k := rfl

theorem updateAssoc_nil (k : String) (f : List Op → List Op) :
    updateAssoc [] k f = [(k, f [])] := rfl

theorem updateAssoc_cons (k0 : String) (v : List Op) (rest : BState) (k : String)
    (f : List Op → List Op) :
    updateAssoc ((k0, v) :: rest) k f =
      if k0 = k then (k0, f v) :: rest else (k0, v) :: updateAssoc rest k f := rfl

theorem lookupD_updateAssoc_self (st : BState) (k : String) (f : List Op → List Op) :
    lookupD (updateAssoc st k f) k = f (lookupD st k) := by
  induction st with
  | nil => rw [updateAssoc_nil, lookupD_cons, if_pos rfl, lookupD_nil]
  | cons e rest ih =>
    obtain ⟨k0, v⟩ := e
    rw [updateAssoc_cons]
    by_cases hk : k0 = k
    · rw [if_pos hk]
      simp [lookupD_cons, hk]
    · rw [if_neg hk]
      simp [lookupD_cons, hk, ih]

theorem lookupD_updateAssoc_other (st : BState) {k k' : String} (h : k' ≠ k)
    (f : List Op → List Op) : lookupD (updateAssoc st k f) k' = lookupD st k' := by
  induction st with
  | nil =>
    rw [updateAssoc_nil, lookupD_cons, if_neg (fun he => h he.symm), lookupD_nil]
  | cons e rest ih =>
    obtain ⟨k0, v⟩ := e
    rw [updateAssoc_cons, lookupD_cons]
    by_cases hk : k0 = k
    · rw [if_pos hk, lookupD_cons, if_neg (fun he : k0 = k' => h (he ▸ hk ▸ rfl : k' = k))]
      rw [if_neg (fun he : k0 = k' => h (he ▸ hk ▸ rfl : k' = k))]
    · rw [if_neg hk, lookupD_cons]
      by_cases hk' : k0 = k'
      · rw [if_pos hk', if_pos hk']
      · rw [if_neg hk', if_neg hk', ih]

theorem mem_keys_updateAssoc {st : BState} {k x : String} {f : List Op → List Op} :
    x ∈ (updateAssoc st k f).map Prod.fst ↔ x ∈ st.map Prod.fst ∨ x = k := by
  induction st with
  | nil => simp [updateAssoc_nil]
  | cons e rest ih =>
    obtain ⟨k0, v⟩ := e
    rw [updateAssoc_cons]
    by_cases hk : k0 = k
    · rw [if_pos hk]
      subst hk
      simp only [List.map_cons, List.mem_cons]
      tauto
    · rw [if_neg hk]
      simp only [List.map_cons, List.mem_cons, ih]
      tauto

theorem keys_nodup_updateAssoc {st : BState} {k : String} {f : List Op → List Op}
    (h : (st.map Prod.fst).Nodup) : ((updateAssoc st k f).map Prod.fst).Nodup := by
  induction st with
  | nil => simp [updateAssoc_nil]
  | cons e rest ih =>
    obtain ⟨k0, v⟩ := e
    rw [List.map_cons, List.nodup_cons] at h
    rw [updateAssoc_cons]
    by_cases hk : k0 = k
    · rw [if_pos hk, List.map_cons, List.nodup_cons]
      exact ⟨h.1, h.2⟩
    · rw [if_neg hk, List.map_cons, List.nodup_cons]
      refine ⟨?_, ih h.2⟩
      rw [mem_keys_updateAssoc]
      rintro (hm | rfl)
      · exact h.1 hm
      · exact hk rfl

theorem updateAssoc_forall {P : String × List Op → Prop} {st : BState} {k : String}
    {f : List Op → List Op} (hall : ∀ e ∈ st, P e) (hnew : P (k, f (lookupD st k))) :
    ∀ e ∈ updateAssoc st k f, P e := by
  induction st with
  | nil =>
    intro e he
    rw [updateAssoc_nil] at he
    rcases List.mem_singleton.mp he with rfl
    rw [lookupD_nil] at hnew
    exact hnew
  | cons e0 rest ih =>
    obtain ⟨k0, v⟩ := e0
    rw [lookupD_cons] at hnew
    intro e he
    rw [updateAssoc_cons] at he
    by_cases hk : k0 = k
    · rw [if_pos hk] at he
      rw [if_pos hk] at hnew
      rcases List.mem_cons.mp he with rfl | he
      · exact hk ▸ hnew
      · exact hall e (List.mem_cons_of_mem _ he)
    · rw [if_neg hk] at he
      rw [if_neg hk] at hnew
      rcases List.mem_cons.mp he with rfl | he
      · exact hall _ (List.mem_cons_self _ _)
      · exact ih (fun x hx => hall x (List.mem_cons_of_mem _ hx)) hnew e he

theorem namesAt_nodup {st : BState} (h : NamesOK st) (k : String) : (namesAt st k).Nodup := by
  induction st with
  | nil => simp [namesAt, lookupD_nil]
  | cons e rest ih =>
    obtain ⟨k0, v⟩ := e
    rw [namesAt, lookupD_cons]
    by_cases hk : k0 = k
    · rw [if_pos hk]
      exact h _ (List.mem_cons_self _ _)
    · rw [if_neg hk]
      exact ih (fun x hx => h x (List.mem_cons_of_mem _ hx))

theorem nodup_append_singleton {l : List String} {a : String} (h : l.Nodup) (ha : a ∉ l) :
    (l ++ [a]).Nodup := by
  rw [List.nodup_append]
  exact ⟨h, List.nodup_singleton a, by simpa using ha⟩

theorem KeysOK_pushOp {st : BState} (h : KeysOK st) (k : String) (op : Op) :
    KeysOK (pushOp st k op) := keys_nodup_updateAssoc h

theorem NamesOK_pushOp {st : BState} (h : NamesOK st) {k : String} {op : Op}
    (hfresh : op.name ∉ namesAt st k) : NamesOK (pushOp st k op) := by
  apply updateAssoc_forall h
  show ((lookupD st k ++ [op]).map (fun o : Op => o.name)).Nodup
  rw [List.map_append]
  exact nodup_append_singleton (namesAt_nodup h k) hfresh

theorem AllOps_lookupD {P : Op → Prop} {st : BState} (h : AllOps P st) (k : String) :
    ∀ o ∈ lookupD st k, P o := by
  induction st with
  | nil => simp [lookupD_nil]
  | cons e rest ih =>
    obtain ⟨k0, v⟩ := e
    rw [lookupD_cons]
    by_cases hk : k0 = k
    · rw [if_pos hk]
      exact h _ (List.mem_cons_self _ _)
    · rw [if_neg hk]
      exact ih (fun x hx => h x (List.mem_cons_of_mem _ hx))

theorem AllOps_pushOp {P : Op → Prop} {st : BState} (h : AllOps P st) {k : String} {op : Op}
    (hop : P op) : AllOps P (pushOp st k op) := by
  apply updateAssoc_forall h
  intro o ho
  rcases List.mem_append.mp ho with ho | ho
  · exact AllOps_lookupD h k o ho
  · rcases List.mem_singleton.mp ho with rfl
    exact hop

theorem lookupD_of_mem {st : BState} (hk : KeysOK st) {k : String} {ops : List Op}
    (hmem : (k, ops) ∈ st) : lookupD st k = ops := by
  induction st with
  | nil => simp at hmem
  | cons e rest ih =>
    obtain ⟨k0, v⟩ := e
    rw [KeysOK, List.map_cons, List.nodup_cons] at hk
    rcases List.mem_cons.mp hmem with he | hmem
    · rw [lookupD_cons]
      injection he with h1 h2
      rw [if_pos h1.symm, h2]
    · rw [lookupD_cons]
      by_cases hk0 : k0 = k
      · subst hk0
        exfalso
        exact hk.1 (List.mem_map.mpr ⟨(k0, ops), hmem, rfl⟩)
      · rw [if_neg hk0]
        exact ih hk.2 hmem

theorem mem_sortResources {rs : List Resource} {r : Resource} :
    r ∈ sortResources rs ↔ r ∈ rs :=
  (List.perm_insertionSort resLe rs).mem_iff

theorem map_name_stateResources (st : BState) :
    (stateResources st).map (fun r => r.name) = st.map Prod.fst := by
  rw [stateResources, List.map_map]
  rfl

theorem finalize_TreeInv {st : BState} (hk : KeysOK st) (hn : NamesOK st) (v : Nat)
    (u : String) :
    TreeInv {version := v, base_url := u, resources := sortResources (stateResources st)} := by
  have hperm : (sortResources (stateResources st)).Perm (stateResources st) :=
    List.perm_insertionSort resLe (stateResources st)
  refine ⟨?_, ?_, ?_⟩
  · have := (hperm.map (fun r => r.name)).nodup_iff
    rw [this, map_name_stateResources]
    exact hk
  · have hs : (sortResources (stateResources st)).Sorted resLe :=
      List.sorted_insertionSort resLe (stateResources st)
    exact List.Pairwise.map _ (fun _ _ hab => hab) hs
  · intro r hr
    rw [mem_sortResources] at hr
    obtain ⟨e, he, rfl⟩ := List.mem_map.mp hr
    exact hn e he

theorem finalize_AllOps {P : Op → Prop} {st : BState} (h : AllOps P st) {v : Nat} {u : String}
    {r : Resource}
    (hr : r ∈ (Tree.mk v u (sortResources (stateResources st))).resources) :
    ∀ o ∈ r.ops, P o := by
  simp only [mem_sortResources] at hr
  obtain ⟨e, he, rfl⟩ := List.mem_map.mp hr
  exact h e he

/-! ### Fold-preservation lemmas -/

theorem foldl_inv {β : Type} {f : BState → β → BState} {P : BState → Prop}
    (hf : ∀ st b, P st → P (f st b)) :
    ∀ (l : List β) (st : BState), P st → P (l.foldl f st) := by
  intro l
  induction l with
  | nil => intro st h; exact h
  | cons b rest ih => intro st h; exact ih (f st b) (hf st b h)

theorem foldlM_option_inv {α : Type} {f : BState → α → Option BState} {P : BState → Prop}
    (hf : ∀ st a st', P st → f st a = some st' → P st') :
    ∀ (l : List α) (st st' : BState), P st → l.foldlM f st = some st' → P st' := by
  intro l
  induction l with
  | nil =>
    intro st st' h heq
    simp [List.foldlM] at heq
    exact heq ▸ h
  | cons a rest ih =>
    intro st st' h heq
    rw [List.foldlM_cons] at heq
    cases hfa : f st a with
    | none => rw [hfa] at heq; simp at heq
    | some st1 =>
      rw [hfa] at heq
      simp only [Option.bind_eq_bind, Option.some_bind] at heq
      exact ih st1 st' (hf st a st1 h hfa) heq

theorem foldlM_option_none {α : Type} {f : BState → α → Option BState} {a : α}
    (ha : ∀ st, f st a = none) :
    ∀ (l : List α) (st : BState), a ∈ l → l.foldlM f st = none := by
  intro l
  induction l with
  | nil => intro st h; simp at h
  | cons b rest ih =>
    intro st hmem
    rw [List.foldlM_cons]
    rcases List.mem_cons.mp hmem with rfl | hmem
    · rw [ha st]
      rfl
    · cases hfb : f st b with
      | none => rfl
      | some st1 =>
        simp only [Option.bind_eq_bind, Option.some_bind]
        exact ih st1 hmem

theorem StOK_nil : StOK [] := ⟨by simp [KeysOK], by simp [NamesOK]⟩

theorem AllOps_nil (P : Op → Prop) : AllOps P [] := by simp [AllOps]

theorem oaAddOp_inv {st st' : BState} {path method : String} {d : OADetails}
    (h : StOK st) (heq : oaAddOp st path method d = some st') : StOK st' := by
  rw [oaAddOp] at heq
  by_cases hv : recognizedVerbs.contains (strToLower method) = true
  · rw [if_pos hv] at heq
    cases hres : oaResource path d.tags with
    | none =>
      rw [hres] at heq
      simp at heq
    | some resource =>
      rw [hres] at heq
      simp only [Option.some.injEq] at heq
      subst heq
      refine ⟨KeysOK_pushOp h.1 _ _, NamesOK_pushOp h.2 ?_⟩
      exact oaFresh_not_mem _ _ (normalize_isKebab _) (normalize_ne_empty _)
  · rw [if_neg hv] at heq
    simp only [Option.some.injEq] at heq
    exact heq ▸ h

theorem oaAddOp_shape {st st' : BState} {path method : String} {d : OADetails}
    (h : AllOps OAShape st) (heq : oaAddOp st path method d = some st') :
    AllOps OAShape st' := by
  rw [oaAddOp] at heq
  by_cases hv : recognizedVerbs.contains (strToLower method) = true
  · rw [if_pos hv] at heq
    cases hres : oaResource path d.tags with
    | none =>
      rw [hres] at heq
      simp at heq
    | some resource =>
      rw [hres] at heq
      simp only [Option.some.injEq] at heq
      subst heq
      exact AllOps_pushOp h ⟨d.parameters, rfl⟩
  · rw [if_neg hv] at heq
    simp only [Option.some.injEq] at heq
    exact heq ▸ h

theorem oaFold_inv {P : BState → Prop}
    (hstep : ∀ st path method d st', P st → oaAddOp st path method d = some st' → P st') :
    ∀ (spec : OASpec) (st : BState), P [] →
      (spec.paths.foldlM (fun st (pm : String × Option (List (String × OADetails))) =>
        match pm.2 with
        | none => some st
        | some methods =>
          methods.foldlM (fun st2 (md : String × OADetails) => oaAddOp st2 pm.1 md.1 md.2) st)
        ([] : BState)) = some st → P st := by
  intro spec st h0 heq
  refine foldlM_option_inv ?_ spec.paths [] st h0 heq
  intro st1 pm st2 h1 hpm
  cases hmm : pm.2 with
  | none =>
    rw [hmm] at hpm
    simp at hpm
    exact hpm ▸ h1
  | some methods =>
    rw [hmm] at hpm
    exact foldlM_option_inv (fun sa md sb ha hab => hstep sa pm.1 md.1 md.2 sb ha hab)
      methods st1 st2 h1 hpm

theorem build_from_openapi_StOK {spec : OASpec} {t : Tree}
    (h : build_from_openapi spec = some t) :
    ∃ st : BState, StOK st ∧ AllOps OAShape st ∧
      t = {version := 1, base_url := openapi_base_url spec,
           resources := sortResources (stateResources st)} := by
  rw [build_from_openapi] at h
  obtain ⟨st, hst, hmk⟩ := Option.map_eq_some'.mp h
  refine ⟨st, ?_, ?_, hmk.symm⟩
  · exact oaFold_inv (fun s p m d s' hp he => oaAddOp_inv hp he) spec st StOK_nil hst
  · exact oaFold_inv (fun s p m d s' hp he => oaAddOp_shape hp he) spec st
      (AllOps_nil _) hst

theorem pmAddRequest_inv {st : BState} (h : StOK st) (parents : List String)
    (n d : String) (r : PMRequest) : StOK (pmAddRequest st parents n d r) := by
  refine ⟨KeysOK_pushOp h.1 _ _, NamesOK_pushOp h.2 ?_⟩
  exact dedupe_not_mem _ _ _

theorem pmAddRequest_shape {st : BState} (h : AllOps PMShape st) (parents : List String)
    (n d : String) (r : PMRequest) : AllOps PMShape (pmAddRequest st parents n d r) :=
  AllOps_pushOp h ⟨r.url, rfl⟩

theorem pmItemSize_pos (i : PMItem) : 1 ≤ pmItemSize i := by
  cases i with
  | folder n children => rw [pmItemSize]; omega
  | request n d r => rw [pmItemSize]

theorem walk_inv {P : BState → Prop}
    (hstep : ∀ st parents n d r, P st → P (pmAddRequest st parents n d r)) :
    ∀ (st : BState) (parents : List String) (items : List PMItem),
      P st → P (walk st parents items) := by
  suffices h : ∀ (k : Nat) (items : List PMItem), pmListSize items ≤ k →
      ∀ st parents, P st → P (walk st parents items) by
    intro st parents items hp
    exact h (pmListSize items) items le_rfl st parents hp
  intro k
  induction k with
  | zero =>
    intro items hs st parents hp
    cases items with
    | nil => exact hp
    | cons i rest =>
      exfalso
      have h1 := pmItemSize_pos i
      rw [pmListSize] at hs
      omega
  | succ k ih =>
    intro items hs st parents hp
    cases items with
    | nil => exact hp
    | cons i rest =>
      have h1 := pmItemSize_pos i
      rw [pmListSize] at hs
      show P (walk (walkOne st parents i) parents rest)
      apply ih rest (by omega) _ parents
      cases i with
      | folder n children =>
        show P (walk st (parents ++ [n]) children)
        rw [pmItemSize] at hs
        exact ih children (by omega) st (parents ++ [n]) hp
      | request n d r => exact hstep st parents n d r hp

theorem build_from_postman_state (spec : PMSpec) :
    StOK (walk [] [] spec.items) ∧ AllOps PMShape (walk [] [] spec.items) :=
  ⟨@walk_inv StOK (fun _ parents n d r h => pmAddRequest_inv h parents n d r) [] [] spec.items
    StOK_nil,
   @walk_inv (AllOps PMShape) (fun _ parents n d r h => pmAddRequest_shape h parents n d r)
    [] [] spec.items (AllOps_nil _)⟩

theorem mergeResOp_names_nodup {ops : List Op}
    (h : (ops.map (fun o => o.name)).Nodup) (op : Op) :
    ((mergeResOp ops op).map (fun o => o.name)).Nodup := by
  by_cases hk : (ops.map mergeOpKey).contains (mergeOpKey op) = true
  · simp only [mergeResOp, if_pos hk]
    exact h
  · by_cases hn : (ops.map (fun o => o.name)).contains op.name = true
    · simp only [mergeResOp, if_neg hk, if_pos hn, List.map_append, List.map_cons,
        List.map_nil]
      exact nodup_append_singleton h (mergeRename_not_mem _ _ _)
    · simp only [mergeResOp, if_neg hk, if_neg hn, List.map_append, List.map_cons,
        List.map_nil]
      exact nodup_append_singleton h (not_mem_of_contains_false (by simpa using hn))

theorem foldl_mergeResOp_nodup :
    ∀ (ops acc : List Op), ((acc.map (fun o => o.name)).Nodup) →
      (((ops.foldl mergeResOp acc).map (fun o => o.name)).Nodup) := by
  intro ops
  induction ops with
  | nil => intro acc h; exact h
  | cons op rest ih =>
    intro acc h
    exact ih _ (mergeResOp_names_nodup h op)

theorem addTreeRes_inv {st : BState} (h : StOK st) (res : Resource) :
    StOK (addTreeRes st res) := by
  refine ⟨keys_nodup_updateAssoc h.1, ?_⟩
  apply updateAssoc_forall h.2
  exact foldl_mergeResOp_nodup res.ops _ (namesAt_nodup h.2 res.name)

theorem mergeState_StOK (trees : List Tree) : StOK (mergeState trees) := by
  rw [mergeState]
  refine @foldl_inv Tree _ StOK ?_ trees [] StOK_nil
  intro st t hst
  exact @foldl_inv Resource addTreeRes StOK (fun st2 res h2 => addTreeRes_inv h2 res)
    t.resources st hst

/-! ### Claim C10 support -/

theorem pySplit_no_sep {sep : Char} :
    ∀ {cs : List Char}, (∀ c ∈ cs, c ≠ sep) → pySplit sep cs = [cs] := by
  intro cs
  induction cs with
  | nil => intro _; rfl
  | cons c rest ih =>
    intro h
    rw [pySplit, if_neg (h c (List.mem_cons_self _ _)),
      ih (fun x hx => h x (List.mem_cons_of_mem _ hx))]

theorem oaResource_nil_tags (path : String) :
    oaResource path [] =
      match (pySplit '/' path.data).get? 1 with
      | some seg => some (camel_to_kebab (if seg = [] then "root" else seg.asString))
      | none => none := rfl

theorem oaResource_none {path : String} (h : ('/' : Char) ∉ path.data) :
    oaResource path [] = none := by
  have hs : pySplit '/' path.data = [path.data] :=
    pySplit_no_sep (fun c hc he => absurd (he ▸ hc) h)
  rw [oaResource_nil_tags, hs]
  rfl

theorem oaAddOp_none {st : BState} {path method : String} {d : OADetails}
    (hv : recognizedVerbs.contains (strToLower method) = true)
    (hns : ('/' : Char) ∉ path.data) (ht : d.tags = []) :
    oaAddOp st path method d = none := by
  rw [oaAddOp, if_pos hv, ht, oaResource_none hns]

/-! ### The claims -/

/-- **C9**: the name normalizer (`camel_to_kebab`, with `normalize_op_name`'s
`call` fallback on top) is idempotent on canonical kebab-case strings:
for every string of lowercase alphanumeric tokens separated by single
hyphens, with no leading or trailing hyphen, normalization returns the
string unchanged. -/
theorem claim_C9 (s : String) (h : IsKebab s) :
    camel_to_kebab s = s ∧ (s ≠ "" → normalize_op_name s = s) := by
  have hck : camel_to_kebab s = s := by
    rw [camel_to_kebab, kebab_fixed h, asString_data]
  refine ⟨hck, fun hne => ?_⟩
  rw [normalize_op_name, hck, if_neg hne]

/-- Witness for C9 at the canonical string `"get-invoice-2"`. -/
theorem claim_C9_witness :
    IsKebab "get-invoice-2" ∧ camel_to_kebab "get-invoice-2" = "get-invoice-2" ∧
      normalize_op_name "get-invoice-2" = "get-invoice-2" := by
  have hk : IsKebab "get-invoice-2" := by
    show isKebabChars ("get-invoice-2" : String).data = true
    decide
  exact ⟨hk, (claim_C9 "get-invoice-2" hk).1, (claim_C9 "get-invoice-2" hk).2 (by decide)⟩

/-- **C4 counterexample**: parameter-name extraction does not return each
distinct name exactly once (`/a/{id}/{id}` yields `id` twice), and
a double-curly placeholder `{{id}}` is captured with a leading
brace (`{id`), not as `id`. -/
theorem claim_C4_counterexample :
    extract_path_params "/a/\x7bid\x7d/\x7bid\x7d" = ["id", "id"] ∧
      (["id", "id"] : List String) ≠ ["id"] ∧
      extract_path_params "/x/\x7b\x7bid\x7d\x7d" = ["\x7bid"] ∧
      ("\x7bid" : String) ≠ "id" := by decide

/-- **C4 (amended)**: extraction returns, in scan order and without
deduplication, the capture of each match: a `{name}` placeholder yields
the text up to the first closing brace, a `:word` placeholder yields the
word; because the single-curly alternative matches first, a double-curly
`{{name}}` yields `{name` (with a leading brace). -/
theorem claim_C4 :
    extract_path_params "/v2/invoices/\x7bid\x7d" = ["id"] ∧
      extract_path_params "/u/:uid/v/\x7bpid\x7d" = ["uid", "pid"] ∧
      extract_path_params "/a/\x7bid\x7d/b/\x7bid\x7d" = ["id", "id"] ∧
      extract_path_params "/x/\x7b\x7bid\x7d\x7d" = ["\x7bid"] ∧
      extract_path_params "/w/\x7bx\x7d/v/:y2" = ["x", "y2"] := by decide

/-- **C2 counterexample**: with used names `{a, a-get}`, candidate `a`
and method `get`, the OpenAPI importer's loop produces `a-get-2` (numeric
suffix appended to the verb-suffixed candidate) while the Postman importer's
`dedupe` and the merger produce `a-2` (numeric suffix appended to the
original candidate) — the three procedures are not the same function. -/
theorem claim_C2_counterexample :
    oaFresh ["a", "a-get"] "a" "get" = "a-get-2" ∧
      dedupe ["a", "a-get"] "a" "get" = "a-2" ∧
      mergeRename ["a", "a-get"] "a" "get" = "a-2" ∧
      ("a-get-2" : String) ≠ "a-2" := by decide

theorem numericRetry_succ (used : List String) (name cand : String) (idx f : Nat) :
    numericRetry used name cand idx (f + 1) =
      if used.contains cand then
        numericRetry used name (normalize_op_name (name ++ "-" ++ Nat.repr idx)) (idx + 1) f
      else cand := rfl

theorem oaNumeric_succ (used : List String) (cand : String) (idx f : Nat) :
    oaNumeric used cand idx (f + 1) =
      if used.contains cand then
        oaNumeric used (normalize_op_name (cand ++ "-" ++ Nat.repr idx)) (idx + 1) f
      else cand := rfl

/-- **C2 (amended)**: the Postman importer's `dedupe` and the merger's
renaming are the same procedure (the merger merely skips the call when the
name is unused, which `dedupe` also returns unchanged); the OpenAPI
importer's procedure agrees with them whenever the original candidate or the
verb-suffixed retry is fresh (for a lowercase method key), but differs as
soon as the verb-suffixed retry also collides, because its numeric suffixes
accumulate on the previous candidate instead of the original name. -/
theorem claim_C2 :
    (∀ (used : List String) (name method : String),
      dedupe used name method =
        if used.contains name then mergeRename used name method else name) ∧
    (∀ (used : List String) (name method : String),
      strToLower method = method →
      used.contains (normalize_op_name (name ++ "-" ++ method)) = false →
      oaFresh used name method = dedupe used name method) := by
  constructor
  · intro used name method
    rw [dedupe, mergeRename]
    by_cases hc : used.contains name = true
    · rw [if_pos hc, if_pos hc]
    · rw [if_neg hc, if_neg hc]
      rw [show used.length + 2 = (used.length + 1) + 1 from rfl, numericRetry_succ,
        if_neg hc]
  · intro used name method hm hfree
    have hn : ¬(used.contains (normalize_op_name (name ++ "-" ++ method)) = true) := by
      rw [hfree]
      exact Bool.false_ne_true
    rw [oaFresh, dedupe, hm]
    by_cases hc : used.contains name = true
    · rw [if_pos hc]
      rw [show used.length + 2 = (used.length + 1) + 1 from rfl, oaNumeric_succ,
        numericRetry_succ, if_neg hn, if_neg hn]
    · rw [if_neg hc]
      rw [show used.length + 2 = (used.length + 1) + 1 from rfl, oaNumeric_succ,
        numericRetry_succ, if_neg hc, if_neg hc]

/-- Witness for C2 at concrete inputs: the three procedures agree when the
first or second candidate resolves. -/
theorem claim_C2_witness :
    oaFresh ["a"] "a" "get" = dedupe ["a"] "a" "get" ∧
      dedupe ["b", "a-get"] "a" "get" =
        (if (["b", "a-get"] : List String).contains "a" then
          mergeRename ["b", "a-get"] "a" "get"
         else "a") :=
  ⟨(claim_C2).2 ["a"] "a" "get" (by decide) (by decide), (claim_C2).1 ["b", "a-get"] "a" "get"⟩

/-- **C10**: the no-tags resource derivation indexes element 1 of
`path.split("/")`, which is out of bounds when the path key contains no `/`;
any OpenAPI document whose paths map contains a slash-free key holding a
recognized verb with no tags makes the importer fail (modelled by `none`,
the uncaught `IndexError`). -/
theorem claim_C10 (spec : OASpec)
    (h : ∃ pm ∈ spec.paths, ('/' : Char) ∉ pm.1.data ∧ ∃ ms, pm.2 = some ms ∧
      ∃ md ∈ ms, recognizedVerbs.contains (strToLower md.1) = true ∧ md.2.tags = []) :
    build_from_openapi spec = none := by
  obtain ⟨pm, hpm, hns, ms, hms, md, hmd, hv, ht⟩ := h
  have houter : ∀ st : BState,
      (match pm.2 with
        | none => some st
        | some methods =>
          methods.foldlM (fun st2 (md : String × OADetails) => oaAddOp st2 pm.1 md.1 md.2) st)
        = none := by
    intro st
    rw [hms]
    exact @foldlM_option_none (String × OADetails)
      (fun st2 (mdx : String × OADetails) => oaAddOp st2 pm.1 mdx.1 mdx.2) md
      (fun st2 => oaAddOp_none hv hns ht) ms st hmd
  rw [build_from_openapi,
    @foldlM_option_none (String × Option (List (String × OADetails)))
      (fun st (pmx : String × Option (List (String × OADetails))) =>
        match pmx.2 with
        | none => some st
        | some methods =>
          methods.foldlM (fun st2 (md : String × OADetails) => oaAddOp st2 pmx.1 md.1 md.2) st)
      pm houter spec.paths ([] : BState) hpm]
  rfl

/-- Witness for C10: a concrete document with slash-free path key
`"invoices"`, a `get` operation and no tags. -/
theorem claim_C10_witness :
    build_from_openapi ⟨[], [("invoices", some [("get", ⟨[], "", [], false, "", ""⟩)])]⟩ =
      none :=
  claim_C10 _ ⟨("invoices", some [("get", ⟨[], "", [], false, "", ""⟩)]),
    List.mem_singleton.mpr rfl, by decide,
    [("get", ⟨[], "", [], false, "", ""⟩)], rfl,
    ("get", ⟨[], "", [], false, "", ""⟩), List.mem_singleton.mpr rfl, by decide, rfl⟩

/-! ### Claim C7 -/

/-- **C7**: every tree produced by the OpenAPI importer, the Postman importer
or the tree merger has pairwise-distinct resource names, a resource sequence
sorted by name, and pairwise-distinct operation names within each resource. -/
theorem claim_C7 :
    (∀ (spec : OASpec) (t : Tree), build_from_openapi spec = some t → TreeInv t) ∧
    (∀ spec : PMSpec, TreeInv (build_from_postman spec)) ∧
    (∀ trees : List Tree, TreeInv (merge_trees trees)) := by
  refine ⟨?_, ?_, ?_⟩
  · intro spec t h
    obtain ⟨st, ⟨hk, hn⟩, _, rfl⟩ := build_from_openapi_StOK h
    exact finalize_TreeInv hk hn 1 _
  · intro spec
    obtain ⟨⟨hk, hn⟩, _⟩ := build_from_postman_state spec
    exact finalize_TreeInv hk hn 1 (postman_base_url spec)
  · intro trees
    obtain ⟨hk, hn⟩ := mergeState_StOK trees
    exact finalize_TreeInv hk hn 1 (mergeBaseUrl trees)

/-- Witness for C7 on a one-operation OpenAPI document. -/
theorem claim_C7_witness :
    build_from_openapi (OASpec.mk []
        [("/v2/invoices", some [("get", OADetails.mk ["Invoices"] "listInvoices" [] false "" "")])]) =
      some (Tree.mk 1 "https://api.xendit.co"
        [Resource.mk "invoices" [Op.mk "list-invoices" "GET" "/v2/invoices" "" [] false]]) ∧
    TreeInv (Tree.mk 1 "https://api.xendit.co"
      [Resource.mk "invoices" [Op.mk "list-invoices" "GET" "/v2/invoices" "" [] false]]) :=
  ⟨by decide,
   claim_C7.1 (OASpec.mk []
       [("/v2/invoices", some [("get", OADetails.mk ["Invoices"] "listInvoices" [] false "" "")])])
     (Tree.mk 1 "https://api.xendit.co"
       [Resource.mk "invoices" [Op.mk "list-invoices" "GET" "/v2/invoices" "" [] false]])
     (by decide)⟩

/-! ### Claim C6 -/

/-- **C6**: the merger's base URL is the default production host when the
inputs contain no non-empty base URL, the unique URL when exactly one
distinct one exists, and with several distinct URLs the default host if
present among them and otherwise the first-seen one, reaching the stderr
warning exactly in the several-URL case. -/
theorem claim_C6 (trees : List Tree) :
    (merge_trees trees).base_url = mergeBaseUrl trees ∧
    defaultBaseUrl = "https://api.xendit.co" ∧
    (uniqueUrls trees = [] →
      mergeBaseUrl trees = defaultBaseUrl ∧ mergeWarning trees = false) ∧
    (∀ u, uniqueUrls trees = [u] →
      mergeBaseUrl trees = u ∧ mergeWarning trees = false) ∧
    (2 ≤ (uniqueUrls trees).length →
      ((uniqueUrls trees).contains defaultBaseUrl = true →
        mergeBaseUrl trees = defaultBaseUrl) ∧
      ((uniqueUrls trees).contains defaultBaseUrl = false →
        mergeBaseUrl trees = (uniqueUrls trees).headD "") ∧
      mergeWarning trees = true) := by
  refine ⟨rfl, rfl, ?_, ?_, ?_⟩
  · intro h
    constructor
    · simp [mergeBaseUrl, h]
    · simp [mergeWarning, h]
  · intro u h
    constructor
    · simp [mergeBaseUrl, h]
    · simp [mergeWarning, h]
  · intro h2
    have hne : uniqueUrls trees ≠ [] := by
      intro h0
      rw [h0] at h2
      simp at h2
    have hl : (uniqueUrls trees).length ≠ 1 := by omega
    refine ⟨?_, ?_, ?_⟩
    · intro hc
      simp only [mergeBaseUrl]
      rw [if_neg hne, if_neg hl, if_pos hc]
    · intro hc
      simp only [mergeBaseUrl]
      rw [if_neg hne, if_neg hl, if_neg (by rw [hc]; exact Bool.false_ne_true)]
    · rw [mergeWarning]
      simp [hne, hl]

/-- Witness for C6: two distinct base URLs, the default host among them. -/
theorem claim_C6_witness :
    2 ≤ (uniqueUrls [Tree.mk 1 "https://api.xendit.co" [],
        Tree.mk 1 "https://sandbox.xendit.co" []]).length ∧
      mergeBaseUrl [Tree.mk 1 "https://api.xendit.co" [],
        Tree.mk 1 "https://sandbox.xendit.co" []] = defaultBaseUrl ∧
      mergeWarning [Tree.mk 1 "https://api.xendit.co" [],
        Tree.mk 1 "https://sandbox.xendit.co" []] = true := by
  have h := (claim_C6 [Tree.mk 1 "https://api.xendit.co" [],
    Tree.mk 1 "https://sandbox.xendit.co" []]).2.2.2.2 (by decide)
  exact ⟨by decide, h.1 (by decide), h.2.2⟩

/-! ### Claim C8 -/

theorem pySplit_sep_cons (sep : Char) (cs : List Char) :
    pySplit sep (sep :: cs) = [] :: pySplit sep cs := by
  rw [pySplit, if_pos rfl]

theorem pySplit_append_sep (sep : Char) :
    ∀ (seg : List Char), sep ∉ seg → ∀ rest : List Char,
      pySplit sep (seg ++ sep :: rest) = seg :: pySplit sep rest := by
  intro seg
  induction seg with
  | nil => intro _ rest; exact pySplit_sep_cons sep rest
  | cons c cs ih =>
    intro h rest
    have hcne : c ≠ sep := fun he => h (by rw [← he]; exact List.mem_cons_self c cs)
    rw [List.cons_append, pySplit, if_neg hcne,
      ih (fun hm => h (List.mem_cons_of_mem _ hm)) rest]

theorem firstNonemptySeg_slash (seg rest : List Char) (h : '/' ∉ seg) (hne : seg ≠ []) :
    firstNonemptySeg (('/' :: (seg ++ '/' :: rest)).asString) = seg.asString := by
  rw [firstNonemptySeg, data_asString, pySplit_sep_cons, pySplit_append_sep '/' seg h rest]
  rw [List.find?_cons_of_neg _ (by simp), List.find?_cons_of_pos _ (by simp [hne])]

/-- **C8 counterexample**: for the path `//v2/invoices` the segment at index 1
of the slash-split is empty, so the code derives the resource `root`, while
the first non-empty segment of that path is `v2`. -/
theorem claim_C8_counterexample :
    oaResource "//v2/invoices" [] = some "root" ∧
      camel_to_kebab (firstNonemptySeg "//v2/invoices") = "v2" ∧
      ("root" : String) ≠ "v2" := by decide

/-- **C8 (amended)**: with no tags, the resource name is the kebab-case of the
segment at index 1 of the slash-split path — the text strictly between the
first and second slash, or everything after the first slash when no second
slash exists — with the literal `root` substituted when that segment is
empty; when the path starts with a single slash followed by a non-empty
segment, this coincides with the first non-empty segment of the path. -/
theorem claim_C8 :
    (∀ seg rest : List Char, '/' ∉ seg →
      oaResource (('/' :: (seg ++ '/' :: rest)).asString) [] =
        some (camel_to_kebab (if seg = [] then "root" else seg.asString))) ∧
    (∀ seg : List Char, '/' ∉ seg →
      oaResource (('/' :: seg).asString) [] =
        some (camel_to_kebab (if seg = [] then "root" else seg.asString))) ∧
    (∀ seg rest : List Char, '/' ∉ seg → seg ≠ [] →
      oaResource (('/' :: (seg ++ '/' :: rest)).asString) [] =
        some (camel_to_kebab (firstNonemptySeg (('/' :: (seg ++ '/' :: rest)).asString)))) := by
  have h1 : ∀ seg rest : List Char, '/' ∉ seg →
      oaResource (('/' :: (seg ++ '/' :: rest)).asString) [] =
        some (camel_to_kebab (if seg = [] then "root" else seg.asString)) := by
    intro seg rest h
    rw [oaResource_nil_tags, data_asString, pySplit_sep_cons,
      pySplit_append_sep '/' seg h rest]
    rfl
  refine ⟨h1, ?_, ?_⟩
  · intro seg h
    rw [oaResource_nil_tags, data_asString, pySplit_sep_cons, pySplit_no_sep
      (fun c hc he => absurd (by rw [← he]; exact hc : ('/' : Char) ∈ seg) h)]
    rfl
  · intro seg rest h hne
    rw [h1 seg rest h, if_neg hne, firstNonemptySeg_slash seg rest h hne]

/-- Witness for C8 at the path `/v2/x`. -/
theorem claim_C8_witness :
    ('/' ∉ (['v', '2'] : List Char)) ∧
      oaResource (('/' :: (['v', '2'] ++ '/' :: ['x'])).asString) [] =
        some (camel_to_kebab (if (['v', '2'] : List Char) = [] then "root"
          else (['v', '2'] : List Char).asString)) :=
  ⟨by decide, claim_C8.1 ['v', '2'] ['x'] (by decide)⟩

/-! ### Claim C3 -/

theorem foldl_forall {α β : Type} {P : α → Prop} {g : List α → β → List α}
    (hg : ∀ acc b, (∀ e ∈ acc, P e) → ∀ e ∈ g acc b, P e) :
    ∀ (l : List β) (acc : List α), (∀ e ∈ acc, P e) → ∀ e ∈ l.foldl g acc, P e := by
  intro l
  induction l with
  | nil => intro acc h; exact h
  | cons b rest ih => intro acc h; exact ih (g acc b) (hg acc b h)

theorem upsert_forall {P : (String × String) × Param → Prop} (k : String × String) (v : Param)
    (hv : P (k, v)) :
    ∀ (acc : List ((String × String) × Param)), (∀ e ∈ acc, P e) →
      ∀ e ∈ upsert k v acc, P e := by
  intro acc
  induction acc with
  | nil =>
    intro _ e he
    rw [upsert] at he
    rcases List.mem_singleton.mp he with rfl
    exact hv
  | cons e0 rest ih =>
    intro hacc e he
    obtain ⟨k0, v0⟩ := e0
    rw [upsert] at he
    by_cases hk : k0 = k
    · rw [if_pos hk] at he
      rcases List.mem_cons.mp he with rfl | hrest
      · subst hk
        exact hv
      · exact hacc _ (List.mem_cons_of_mem _ hrest)
    · rw [if_neg hk] at he
      rcases List.mem_cons.mp he with rfl | hrest
      · exact hacc _ (List.mem_cons_self _ _)
      · exact ih (fun x hx => hacc x (List.mem_cons_of_mem _ hx)) e hrest

theorem collect_params_required (url : PMUrl) (path : String) :
    ∀ p ∈ collect_params url path,
      (p.location = "path" → p.required = true) ∧
      (p.location = "query" → p.required = false) := by
  have hstep1 : ∀ (acc : List ((String × String) × Param)) (n : String),
      (∀ e ∈ acc, PEnt e) →
      ∀ e ∈ upsert ("path", n)
        {name := n, flag := camel_to_kebab n, location := "path", required := true} acc,
        PEnt e :=
    fun acc n hacc =>
      upsert_forall _ _ ⟨fun _ => rfl,
        fun hq => absurd (show ("path" : String) = "query" from hq) (by decide)⟩ acc hacc
  have hbase : ∀ e ∈ ((extract_path_params path).foldl (fun acc n =>
      upsert ("path", n)
        {name := n, flag := camel_to_kebab n, location := "path", required := true} acc)
      []), PEnt e :=
    foldl_forall hstep1 (extract_path_params path) [] (by simp)
  cases url with
  | str raw =>
    simp only [collect_params]
    intro p hp
    obtain ⟨e, he, rfl⟩ := List.mem_map.mp hp
    exact hbase e he
  | other =>
    simp only [collect_params]
    intro p hp
    obtain ⟨e, he, rfl⟩ := List.mem_map.mp hp
    exact hbase e he
  | obj po raw vars query =>
    have hstepv : ∀ (acc : List ((String × String) × Param)) (v : PMVar),
        (∀ e ∈ acc, PEnt e) →
        ∀ e ∈ (if v.key ≠ "" then
          upsert ("path", v.key)
            {name := v.key, flag := camel_to_kebab v.key, location := "path",
             required := true} acc
          else acc), PEnt e := by
      intro acc v hacc
      by_cases hvk : v.key ≠ ""
      · rw [if_pos hvk]
        exact upsert_forall _ _ ⟨fun _ => rfl,
          fun hq => absurd (show ("path" : String) = "query" from hq) (by decide)⟩ acc hacc
      · rw [if_neg hvk]
        exact hacc
    have hstepq : ∀ (acc : List ((String × String) × Param)) (q : PMQuery),
        (∀ e ∈ acc, PEnt e) →
        ∀ e ∈ (if q.disabled then acc
          else if q.key ≠ "" then
            upsert ("query", q.key)
              {name := q.key, flag := camel_to_kebab q.key, location := "query",
               required := false} acc
          else acc), PEnt e := by
      intro acc q hacc
      by_cases hd : q.disabled
      · rw [if_pos hd]
        exact hacc
      · rw [if_neg hd]
        by_cases hqk : q.key ≠ ""
        · rw [if_pos hqk]
          exact upsert_forall _ _
            ⟨fun hq => absurd (show ("query" : String) = "path" from hq) (by decide),
             fun _ => rfl⟩ acc hacc
        · rw [if_neg hqk]
          exact hacc
    simp only [collect_params]
    intro p hp
    obtain ⟨e, he, rfl⟩ := List.mem_map.mp hp
    exact foldl_forall hstepq query _ (foldl_forall hstepv vars _ hbase) e he

theorem oaParams_required (l : List OAParam) :
    ∀ p ∈ oaParams l,
      (p.location = "path" → p.required = true) ∧
      (p.location = "query" → ∃ q ∈ l, q.name = p.name ∧ q.location = "query" ∧
        p.required = q.required) := by
  intro p hp
  rw [oaParams] at hp
  obtain ⟨q, hq, hf⟩ := List.mem_filterMap.mp hp
  by_cases hc : q.name ≠ "" ∧ (q.location = "path" ∨ q.location = "query")
  · simp only [if_pos hc, Option.some.injEq] at hf
    have hloc : p.location = q.location := by rw [← hf]
    have hname : p.name = q.name := by rw [← hf]
    have hreq : p.required = (q.required || decide (q.location = "path")) := by rw [← hf]
    constructor
    · intro h1
      have hqp : q.location = "path" := by rw [← hloc]; exact h1
      rw [hreq, hqp]
      simp
    · intro h1
      have hqq : q.location = "query" := by rw [← hloc]; exact h1
      refine ⟨q, hq, hname.symm, hqq, ?_⟩
      rw [hreq, hqq]
      simp
  · simp only [if_neg hc] at hf
    exact absurd hf (by simp)

/-- **C3**: path-location parameters are always required; query-location
parameters default to not required, with the OpenAPI importer copying the
document's `required` flag and the Postman importer always producing
`required = false` for query parameters; the discipline carries to every
operation either importer produces. -/
theorem claim_C3 :
    (∀ (l : List OAParam) (p : Param), p ∈ oaParams l →
      (p.location = "path" → p.required = true) ∧
      (p.location = "query" → ∃ q ∈ l, q.name = p.name ∧ q.location = "query" ∧
        p.required = q.required)) ∧
    (∀ (url : PMUrl) (path : String) (p : Param), p ∈ collect_params url path →
      (p.location = "path" → p.required = true) ∧
      (p.location = "query" → p.required = false)) ∧
    (∀ (spec : OASpec) (t : Tree), build_from_openapi spec = some t →
      ∀ r ∈ t.resources, ∀ op ∈ r.ops, ∀ p ∈ op.params,
        p.location = "path" → p.required = true) ∧
    (∀ spec : PMSpec, ∀ r ∈ (build_from_postman spec).resources, ∀ op ∈ r.ops,
      ∀ p ∈ op.params, p.location = "path" → p.required = true) := by
  refine ⟨fun l p hp => oaParams_required l p hp,
    fun url path p hp => collect_params_required url path p hp, ?_, ?_⟩
  · intro spec t h r hr op hop p hp hloc
    obtain ⟨st, _, hshape, rfl⟩ := build_from_openapi_StOK h
    obtain ⟨l, hl⟩ := finalize_AllOps hshape hr op hop
    rw [hl] at hp
    exact (oaParams_required l p hp).1 hloc
  · intro spec r hr op hop p hp hloc
    obtain ⟨_, hshape⟩ := build_from_postman_state spec
    obtain ⟨url, hurl⟩ := finalize_AllOps hshape hr op hop
    rw [hurl] at hp
    exact (collect_params_required url op.path p hp).1 hloc

/-- Witness for C3 at a concrete declared parameter list. -/
theorem claim_C3_witness :
    (Param.mk "id" "id" "path" true) ∈ oaParams [OAParam.mk "id" "path" false] ∧
      (Param.mk "id" "id" "path" true).required = true :=
  ⟨by decide,
   (claim_C3.1 [OAParam.mk "id" "path" false] (Param.mk "id" "id" "path" true)
     (by decide)).1 (by decide)⟩

theorem upsert_self (k : String × String) (v : Param) :
    ∀ acc, ∃ e ∈ upsert k v acc, e.1 = k ∧ e.2 = v := by
  intro acc
  induction acc with
  | nil => exact ⟨(k, v), List.mem_singleton.mpr rfl, rfl, rfl⟩
  | cons e0 rest ih =>
    obtain ⟨k0, v0⟩ := e0
    rw [upsert]
    by_cases hk : k0 = k
    · rw [if_pos hk]
      exact ⟨(k0, v), List.mem_cons_self _ _, hk, rfl⟩
    · rw [if_neg hk]
      obtain ⟨e, he, h1, h2⟩ := ih
      exact ⟨e, List.mem_cons_of_mem _ he, h1, h2⟩

theorem upsert_mem_of_ne {k : String × String} {v : Param}
    {e : (String × String) × Param} (hne : e.1 ≠ k) :
    ∀ {acc}, e ∈ acc → e ∈ upsert k v acc := by
  intro acc he
  induction acc with
  | nil => simp at he
  | cons e0 rest ih =>
    obtain ⟨k0, v0⟩ := e0
    rw [upsert]
    by_cases hk : k0 = k
    · rw [if_pos hk]
      rcases List.mem_cons.mp he with rfl | hrest
      · exact absurd hk hne
      · exact List.mem_cons_of_mem _ hrest
    · rw [if_neg hk]
      rcases List.mem_cons.mp he with rfl | hrest
      · exact List.mem_cons_self _ _
      · exact List.mem_cons_of_mem _ (ih hrest)

theorem upsert_Q {n : String} {k : String × String} {v : Param}
    (hv : k = ("path", n) → v.location = "path" ∧ v.name = n) :
    ∀ {acc}, QEnt n acc → QEnt n (upsert k v acc) := by
  intro acc hQ
  by_cases hk : k = ("path", n)
  · obtain ⟨e, he, h1, h2⟩ := upsert_self k v acc
    exact ⟨e, he, h1.trans hk, by rw [h2]; exact (hv hk).1, by rw [h2]; exact (hv hk).2⟩
  · obtain ⟨e, he, h1, h2, h3⟩ := hQ
    have hne : e.1 ≠ k := by rw [h1]; exact fun hh => hk hh.symm
    exact ⟨e, upsert_mem_of_ne hne he, h1, h2, h3⟩

theorem foldl_path_QEnt (n : String) :
    ∀ (names : List String) (acc : List ((String × String) × Param)),
      (n ∈ names ∨ QEnt n acc) →
      QEnt n (names.foldl (fun acc2 m =>
        upsert ("path", m)
          {name := m, flag := camel_to_kebab m, location := "path", required := true} acc2)
        acc) := by
  intro names
  induction names with
  | nil =>
    intro acc h
    rcases h with h | h
    · simp at h
    · exact h
  | cons m rest ih =>
    intro acc h
    rw [List.foldl_cons]
    apply ih
    rcases h with hmem | hQ
    · rcases List.mem_cons.mp hmem with rfl | hmem
      · right
        obtain ⟨e, he, h1, h2⟩ := upsert_self ("path", n)
          {name := n, flag := camel_to_kebab n, location := "path", required := true} acc
        exact ⟨e, he, h1, by rw [h2], by rw [h2]⟩
      · left
        exact hmem
    · right
      refine upsert_Q ?_ hQ
      intro hk
      injection hk with h1 h2
      exact ⟨rfl, show m = n from h2⟩

theorem foldl_vars_QEnt (n : String) :
    ∀ (vars : List PMVar) (acc : List ((String × String) × Param)), QEnt n acc →
      QEnt n (vars.foldl (fun acc2 (v : PMVar) =>
        if v.key ≠ "" then
          upsert ("path", v.key)
            {name := v.key, flag := camel_to_kebab v.key, location := "path",
             required := true} acc2
        else acc2) acc) := by
  intro vars
  induction vars with
  | nil => intro acc h; exact h
  | cons v rest ih =>
    intro acc h
    rw [List.foldl_cons]
    apply ih
    show QEnt n (if v.key ≠ "" then
      upsert ("path", v.key)
        {name := v.key, flag := camel_to_kebab v.key, location := "path",
         required := true} acc
      else acc)
    by_cases hvk : v.key ≠ ""
    · rw [if_pos hvk]
      refine upsert_Q ?_ h
      intro hk
      injection hk with h1 h2
      exact ⟨rfl, show v.key = n from h2⟩
    · rw [if_neg hvk]
      exact h

theorem foldl_query_QEnt (n : String) :
    ∀ (query : List PMQuery) (acc : List ((String × String) × Param)), QEnt n acc →
      QEnt n (query.foldl (fun acc2 (q : PMQuery) =>
        if q.disabled then acc2
        else if q.key ≠ "" then
          upsert ("query", q.key)
            {name := q.key, flag := camel_to_kebab q.key, location := "query",
             required := false} acc2
        else acc2) acc) := by
  intro query
  induction query with
  | nil => intro acc h; exact h
  | cons q rest ih =>
    intro acc h
    rw [List.foldl_cons]
    apply ih
    show QEnt n (if q.disabled then acc
      else if q.key ≠ "" then
        upsert ("query", q.key)
          {name := q.key, flag := camel_to_kebab q.key, location := "query",
           required := false} acc
      else acc)
    by_cases hd : q.disabled
    · rw [if_pos hd]
      exact h
    · rw [if_neg hd]
      by_cases hqk : q.key ≠ ""
      · rw [if_pos hqk]
        refine upsert_Q ?_ h
        intro hk
        injection hk with h1 h2
        exact absurd h1 (by decide)
      · rw [if_neg hqk]
        exact h

theorem collect_params_complete (url : PMUrl) (path : String) :
    ∀ n ∈ extract_path_params path,
      ∃ p ∈ collect_params url path, p.location = "path" ∧ p.name = n := by
  intro n hn
  cases url with
  | str raw =>
    simp only [collect_params]
    obtain ⟨e, he, h1, h2, h3⟩ := foldl_path_QEnt n (extract_path_params path) [] (Or.inl hn)
    exact ⟨e.2, List.mem_map_of_mem _ he, h2, h3⟩
  | other =>
    simp only [collect_params]
    obtain ⟨e, he, h1, h2, h3⟩ := foldl_path_QEnt n (extract_path_params path) [] (Or.inl hn)
    exact ⟨e.2, List.mem_map_of_mem _ he, h2, h3⟩
  | obj po raw vars query =>
    simp only [collect_params]
    obtain ⟨e, he, h1, h2, h3⟩ := foldl_query_QEnt n query _
      (foldl_vars_QEnt n vars _ (foldl_path_QEnt n (extract_path_params path) [] (Or.inl hn)))
    exact ⟨e.2, List.mem_map_of_mem _ he, h2, h3⟩

theorem mergeResOp_forall {P : Op → Prop} (hP : ∀ (op : Op) (nm : String), P op → P {op with name := nm})
    {ops : List Op} {op : Op} (hops : ∀ o ∈ ops, P o) (hop : P op) :
    ∀ o ∈ mergeResOp ops op, P o := by
  by_cases hk : (ops.map mergeOpKey).contains (mergeOpKey op) = true
  · simp only [mergeResOp, if_pos hk]
    exact hops
  · simp only [mergeResOp, if_neg hk]
    intro o ho
    rcases List.mem_append.mp ho with h | h
    · exact hops o h
    · rcases List.mem_singleton.mp h with rfl
      exact hP op _ hop

theorem addTreeRes_forall {P : Op → Prop} (hP : ∀ (op : Op) (nm : String), P op → P {op with name := nm})
    {st : BState} (h : AllOps P st) {res : Resource} (hres : ∀ o ∈ res.ops, P o) :
    AllOps P (addTreeRes st res) := by
  apply updateAssoc_forall h
  show ∀ o ∈ res.ops.foldl mergeResOp (lookupD st res.name), P o
  have hgen : ∀ (ops acc : List Op), (∀ o ∈ ops, P o) → (∀ o ∈ acc, P o) →
      ∀ o ∈ ops.foldl mergeResOp acc, P o := by
    intro ops
    induction ops with
    | nil => intro acc _ hacc; exact hacc
    | cons o1 rest ih =>
      intro acc hops hacc
      exact ih _ (fun x hx => hops x (List.mem_cons_of_mem _ hx))
        (mergeResOp_forall hP hacc (hops o1 (List.mem_cons_self _ _)))
  exact hgen res.ops _ hres (AllOps_lookupD h _)

theorem foldl_addTreeRes_forall {P : Op → Prop}
    (hP : ∀ (op : Op) (nm : String), P op → P {op with name := nm}) :
    ∀ (rs : List Resource) (st : BState), (∀ r ∈ rs, ∀ o ∈ r.ops, P o) → AllOps P st →
      AllOps P (rs.foldl addTreeRes st) := by
  intro rs
  induction rs with
  | nil => intro st _ hst; exact hst
  | cons r rest ih =>
    intro st hrs hst
    rw [List.foldl_cons]
    exact ih _ (fun x hx => hrs x (List.mem_cons_of_mem _ hx))
      (addTreeRes_forall hP hst (hrs r (List.mem_cons_self _ _)))

theorem mergeState_forall {P : Op → Prop}
    (hP : ∀ (op : Op) (nm : String), P op → P {op with name := nm})
    {trees : List Tree} (h : ∀ t ∈ trees, ∀ r ∈ t.resources, ∀ o ∈ r.ops, P o) :
    AllOps P (mergeState trees) := by
  rw [mergeState]
  suffices hh : ∀ (ts : List Tree) (st : BState),
      (∀ t ∈ ts, ∀ r ∈ t.resources, ∀ o ∈ r.ops, P o) → AllOps P st →
      AllOps P (ts.foldl (fun st t => t.resources.foldl addTreeRes st) st) by
    exact hh trees [] h (AllOps_nil P)
  intro ts
  induction ts with
  | nil => intro st _ hst; exact hst
  | cons t rest ih =>
    intro st hts hst
    rw [List.foldl_cons]
    exact ih _ (fun x hx => hts x (List.mem_cons_of_mem _ hx))
      (foldl_addTreeRes_forall hP t.resources st (hts t (List.mem_cons_self _ _)) hst)

/-- **C1 counterexample**: the OpenAPI importer keeps only the declared
parameter list, so a path placeholder absent from it yields an operation
whose `params` has no matching path parameter. -/
theorem claim_C1_counterexample :
    build_from_openapi (OASpec.mk []
        [("/v2/invoices/\x7bid\x7d",
          some [("get", OADetails.mk ["Invoices"] "getInvoice" [] false "" "")])]) =
      some (Tree.mk 1 "https://api.xendit.co"
        [Resource.mk "invoices"
          [Op.mk "get-invoice" "GET" "/v2/invoices/\x7bid\x7d" "" [] false]]) ∧
      extract_path_params "/v2/invoices/\x7bid\x7d" = ["id"] ∧
      pathComplete (Op.mk "get-invoice" "GET" "/v2/invoices/\x7bid\x7d" "" [] false) =
        false := by decide

/-- **C1 (amended)**: every operation produced by the Postman importer
carries a path-location parameter for each placeholder in its path, and the
merger preserves this property of its inputs; the OpenAPI importer does not
guarantee it, since its parameters come only from the document's declared
list. -/
theorem claim_C1 :
    (∀ spec : PMSpec, ∀ r ∈ (build_from_postman spec).resources, ∀ op ∈ r.ops,
      pathComplete op = true) ∧
    (∀ trees : List Tree,
      (∀ t ∈ trees, ∀ r ∈ t.resources, ∀ op ∈ r.ops, pathComplete op = true) →
      ∀ r ∈ (merge_trees trees).resources, ∀ op ∈ r.ops, pathComplete op = true) := by
  constructor
  · intro spec r hr op hop
    obtain ⟨_, hshape⟩ := build_from_postman_state spec
    obtain ⟨url, hurl⟩ := finalize_AllOps hshape hr op hop
    rw [pathComplete, hurl, List.all_eq_true]
    intro nm hnm
    obtain ⟨p, hp, hl, hn⟩ := collect_params_complete url op.path nm hnm
    rw [List.any_eq_true]
    exact ⟨p, hp, by simp [hl, hn]⟩
  · intro trees h r hr op hop
    have hall : AllOps (fun o => pathComplete o = true) (mergeState trees) :=
      mergeState_forall (fun o nm ho => ho) h
    exact finalize_AllOps hall hr op hop

/-- Witness for C1 on a one-request Postman collection with a `\x7bid\x7d`
placeholder. -/
theorem claim_C1_witness :
    (Resource.mk "v2"
        [Op.mk "get-invoice" "GET" "/v2/invoices/\x7bid\x7d" ""
          [Param.mk "id" "id" "path" true] false]) ∈
      (build_from_postman (PMSpec.mk []
        [PMItem.request "Get Invoice" ""
          (PMRequest.mk "GET" (PMUrl.str "/v2/invoices/\x7bid\x7d") none "")])).resources ∧
    pathComplete (Op.mk "get-invoice" "GET" "/v2/invoices/\x7bid\x7d" ""
      [Param.mk "id" "id" "path" true] false) = true :=
  ⟨by decide,
   claim_C1.1 (PMSpec.mk []
       [PMItem.request "Get Invoice" ""
         (PMRequest.mk "GET" (PMUrl.str "/v2/invoices/\x7bid\x7d") none "")])
     (Resource.mk "v2"
       [Op.mk "get-invoice" "GET" "/v2/invoices/\x7bid\x7d" ""
         [Param.mk "id" "id" "path" true] false])
     (by decide)
     (Op.mk "get-invoice" "GET" "/v2/invoices/\x7bid\x7d" ""
       [Param.mk "id" "id" "path" true] false)
     (by decide)⟩

theorem foldl_mergeResOp_cores :
    ∀ (ops acc : List Op),
      ((ops.foldl mergeResOp acc).map opCore =
        acc.map opCore ++ (firstWinsAux (acc.map mergeOpKey) ops).map opCore) ∧
      ((ops.foldl mergeResOp acc).map mergeOpKey =
        acc.map mergeOpKey ++ (firstWinsAux (acc.map mergeOpKey) ops).map mergeOpKey) := by
  intro ops
  induction ops with
  | nil =>
    intro acc
    constructor <;> simp [firstWinsAux]
  | cons op rest ih =>
    intro acc
    rw [List.foldl_cons]
    by_cases hk : (acc.map mergeOpKey).contains (mergeOpKey op) = true
    · have hm : mergeResOp acc op = acc := by simp only [mergeResOp, if_pos hk]
      rw [hm, firstWinsAux, if_pos hk]
      exact ih acc
    · have hc1 : (mergeResOp acc op).map opCore = acc.map opCore ++ [opCore op] := by
        simp only [mergeResOp, if_neg hk, List.map_append, List.map_cons, List.map_nil]
        rfl
      have hc2 : (mergeResOp acc op).map mergeOpKey =
          acc.map mergeOpKey ++ [mergeOpKey op] := by
        simp only [mergeResOp, if_neg hk, List.map_append, List.map_cons, List.map_nil]
        rfl
      rw [firstWinsAux, if_neg hk]
      obtain ⟨ihc, ihk⟩ := ih (mergeResOp acc op)
      constructor
      · rw [ihc, hc1, hc2]
        simp only [List.map_cons, List.append_assoc]
        rfl
      · rw [ihk, hc2]
        simp only [List.map_cons, List.append_assoc]
        rfl

theorem firstWinsAux_append :
    ∀ (xs : List Op) (seen : List (String × String)) (ys : List Op),
      firstWinsAux seen (xs ++ ys) =
        firstWinsAux seen xs ++
          firstWinsAux (seen ++ (firstWinsAux seen xs).map mergeOpKey) ys := by
  intro xs
  induction xs with
  | nil =>
    intro seen ys
    simp [firstWinsAux]
  | cons op rest ih =>
    intro seen ys
    rw [List.cons_append, firstWinsAux, firstWinsAux]
    by_cases hk : seen.contains (mergeOpKey op) = true
    · rw [if_pos hk, if_pos hk, ih]
    · rw [if_neg hk, if_neg hk, ih]
      simp [List.append_assoc]

theorem lookupD_addTreeRes_self (st : BState) (res : Resource) :
    lookupD (addTreeRes st res) res.name = res.ops.foldl mergeResOp (lookupD st res.name) := by
  rw [addTreeRes, lookupD_updateAssoc_self]

theorem lookupD_addTreeRes_other (st : BState) {res : Resource} {r : String}
    (h : r ≠ res.name) : lookupD (addTreeRes st res) r = lookupD st r := by
  rw [addTreeRes, lookupD_updateAssoc_other st h]

theorem resOpsFor_cons (res : Resource) (rest : List Resource) (r : String) :
    resOpsFor (res :: rest) r =
      if res.name = r then res.ops ++ resOpsFor rest r else resOpsFor rest r := by
  rw [resOpsFor, resOpsFor]
  by_cases h : res.name = r
  · rw [if_pos h, List.filter_cons_of_pos (by simp [h]), List.map_cons, List.flatten_cons]
  · rw [if_neg h, List.filter_cons_of_neg (by simp [h])]

theorem treeOpsFor_cons (t : Tree) (ts : List Tree) (r : String) :
    treeOpsFor (t :: ts) r = resOpsFor t.resources r ++ treeOpsFor ts r := by
  rw [treeOpsFor, treeOpsFor, List.map_cons, List.flatten_cons]

theorem foldl_addTreeRes_cores (r : String) :
    ∀ (rs : List Resource) (st : BState),
      ((lookupD (rs.foldl addTreeRes st) r).map opCore =
        (lookupD st r).map opCore ++
          (firstWinsAux ((lookupD st r).map mergeOpKey) (resOpsFor rs r)).map opCore) ∧
      ((lookupD (rs.foldl addTreeRes st) r).map mergeOpKey =
        (lookupD st r).map mergeOpKey ++
          (firstWinsAux ((lookupD st r).map mergeOpKey) (resOpsFor rs r)).map mergeOpKey) := by
  intro rs
  induction rs with
  | nil =>
    intro st
    constructor <;> simp [resOpsFor, firstWinsAux]
  | cons res rest ih =>
    intro st
    rw [List.foldl_cons]
    obtain ⟨ihc, ihk⟩ := ih (addTreeRes st res)
    by_cases hres : res.name = r
    · have hl : lookupD (addTreeRes st res) r = res.ops.foldl mergeResOp (lookupD st r) := by
        rw [← hres, lookupD_addTreeRes_self]
      constructor
      · rw [ihc, hl, (foldl_mergeResOp_cores res.ops (lookupD st r)).1,
          (foldl_mergeResOp_cores res.ops (lookupD st r)).2,
          resOpsFor_cons, if_pos hres, firstWinsAux_append]
        simp only [List.map_append, List.append_assoc]
      · rw [ihk, hl, (foldl_mergeResOp_cores res.ops (lookupD st r)).2,
          resOpsFor_cons, if_pos hres, firstWinsAux_append]
        simp only [List.map_append, List.append_assoc]
    · have hl : lookupD (addTreeRes st res) r = lookupD st r :=
        lookupD_addTreeRes_other st (fun he => hres he.symm)
      rw [resOpsFor_cons, if_neg hres]
      constructor
      · rw [ihc, hl]
      · rw [ihk, hl]

theorem mergeState_cores (r : String) :
    ∀ (ts : List Tree) (st : BState),
      ((lookupD (ts.foldl (fun st t => t.resources.foldl addTreeRes st) st) r).map opCore =
        (lookupD st r).map opCore ++
          (firstWinsAux ((lookupD st r).map mergeOpKey) (treeOpsFor ts r)).map opCore) ∧
      ((lookupD (ts.foldl (fun st t => t.resources.foldl addTreeRes st) st) r).map mergeOpKey =
        (lookupD st r).map mergeOpKey ++
          (firstWinsAux ((lookupD st r).map mergeOpKey) (treeOpsFor ts r)).map mergeOpKey) := by
  intro ts
  induction ts with
  | nil =>
    intro st
    constructor <;> simp [treeOpsFor, firstWinsAux]
  | cons t rest ih =>
    intro st
    rw [List.foldl_cons]
    obtain ⟨ihc, ihk⟩ := ih (t.resources.foldl addTreeRes st)
    constructor
    · rw [ihc, (foldl_addTreeRes_cores r t.resources st).1,
        (foldl_addTreeRes_cores r t.resources st).2,
        treeOpsFor_cons, firstWinsAux_append]
      simp only [List.map_append, List.append_assoc]
    · rw [ihk, (foldl_addTreeRes_cores r t.resources st).2,
        treeOpsFor_cons, firstWinsAux_append]
      simp only [List.map_append, List.append_assoc]

theorem lookupD_pred {P : List Op → Prop} (hnil : P []) :
    ∀ {st : BState}, (∀ e ∈ st, P e.2) → ∀ k, P (lookupD st k) := by
  intro st
  induction st with
  | nil => intro _ k; rw [lookupD_nil]; exact hnil
  | cons e rest ih =>
    intro h k
    obtain ⟨k0, v⟩ := e
    rw [lookupD_cons]
    by_cases hk : k0 = k
    · rw [if_pos hk]
      exact h _ (List.mem_cons_self _ _)
    · rw [if_neg hk]
      exact ih (fun x hx => h x (List.mem_cons_of_mem _ hx)) k

theorem mergeResOp_keys_nodup {ops : List Op}
    (h : (ops.map mergeOpKey).Nodup) (op : Op) :
    ((mergeResOp ops op).map mergeOpKey).Nodup := by
  by_cases hk : (ops.map mergeOpKey).contains (mergeOpKey op) = true
  · simp only [mergeResOp, if_pos hk]
    exact h
  · simp only [mergeResOp, if_neg hk, List.map_append, List.map_cons, List.map_nil]
    rw [List.nodup_append]
    refine ⟨h, List.nodup_singleton _, ?_⟩
    intro x hx1 hx2
    rcases List.mem_singleton.mp hx2 with rfl
    exact hk (List.elem_iff.mpr hx1)

theorem mergeState_keys_nodup (trees : List Tree) :
    ∀ e ∈ mergeState trees, ((e.2.map mergeOpKey).Nodup) := by
  rw [mergeState]
  refine @foldl_inv Tree _ (fun st => ∀ e ∈ st, ((e.2.map mergeOpKey).Nodup)) ?_
    trees [] (by simp)
  intro st t hst
  refine @foldl_inv Resource addTreeRes
    (fun st => ∀ e ∈ st, ((e.2.map mergeOpKey).Nodup)) ?_ t.resources st hst
  intro st2 res h2
  apply updateAssoc_forall h2
  have hpres : ∀ (ops acc : List Op), ((acc.map mergeOpKey).Nodup) →
      (((ops.foldl mergeResOp acc).map mergeOpKey).Nodup) := by
    intro ops
    induction ops with
    | nil => intro acc h; exact h
    | cons o rest ih => intro acc h; exact ih _ (mergeResOp_keys_nodup h o)
  exact hpres res.ops _
    (@lookupD_pred (fun ops => ((ops.map mergeOpKey).Nodup)) List.nodup_nil st2 h2 res.name)

/-- **C5**: within each merged resource, the retained operations are exactly
the first-seen operation of every `(method, path)` pair, in caller-supplied
order, each unchanged except possibly in name (`opCore` drops only the
name), and no two retained operations share a `(method, path)` pair. -/
theorem claim_C5 (trees : List Tree) :
    ∀ res ∈ (merge_trees trees).resources,
      res.ops.map opCore = (firstWins (treeOpsFor trees res.name)).map opCore ∧
      ((res.ops.map mergeOpKey).Nodup) := by
  intro res hres
  have hst := mergeState_StOK trees
  simp only [merge_trees] at hres
  rw [mem_sortResources] at hres
  obtain ⟨e, he, rfl⟩ := List.mem_map.mp hres
  have hlk : lookupD (mergeState trees) e.1 = e.2 :=
    lookupD_of_mem hst.1 (show (e.1, e.2) ∈ mergeState trees from by
      rw [Prod.mk.eta]; exact he)
  constructor
  · have h := (mergeState_cores e.1 trees []).1
    rw [lookupD_nil] at h
    simp only [List.map_nil, List.nil_append] at h
    rw [← mergeState, hlk] at h
    show e.2.map opCore = (firstWins (treeOpsFor trees e.1)).map opCore
    rw [firstWins]
    exact h
  · show (e.2.map mergeOpKey).Nodup
    rw [← hlk]
    exact @lookupD_pred (fun ops => ((ops.map mergeOpKey).Nodup)) List.nodup_nil
      (mergeState trees) (mergeState_keys_nodup trees) e.1

/-- Witness for C5: two trees sharing the `(GET, /a)` pair in resource `r`;
the first tree's operation is retained with its fields. -/
theorem claim_C5_witness :
    (Resource.mk "r" [Op.mk "get-a" "GET" "/a" "d1" [] false]) ∈
      (merge_trees [Tree.mk 1 "u" [Resource.mk "r" [Op.mk "get-a" "GET" "/a" "d1" [] false]],
        Tree.mk 1 "u" [Resource.mk "r" [Op.mk "other" "GET" "/a" "d2" [] true]]]).resources ∧
    ((Resource.mk "r" [Op.mk "get-a" "GET" "/a" "d1" [] false]).ops.map opCore =
      (firstWins (treeOpsFor
        [Tree.mk 1 "u" [Resource.mk "r" [Op.mk "get-a" "GET" "/a" "d1" [] false]],
         Tree.mk 1 "u" [Resource.mk "r" [Op.mk "other" "GET" "/a" "d2" [] true]]]
        (Resource.mk "r" [Op.mk "get-a" "GET" "/a" "d1" [] false]).name)).map opCore ∧
     (((Resource.mk "r" [Op.mk "get-a" "GET" "/a" "d1" [] false]).ops.map mergeOpKey).Nodup)) :=
  ⟨by decide,
   claim_C5
     [Tree.mk 1 "u" [Resource.mk "r" [Op.mk "get-a" "GET" "/a" "d1" [] false]],
      Tree.mk 1 "u" [Resource.mk "r" [Op.mk "other" "GET" "/a" "d2" [] true]]]
     (Resource.mk "r" [Op.mk "get-a" "GET" "/a" "d1" [] false])
     (by decide)⟩
end Xendit
